import Mathlib

/-!
# Verification of the BirdNET batch upload client (`newClient.py`)

This file embeds the behavior of `newClient.py` — a batch client that lists a
directory, filters audio files by extension, POSTs each one to an analysis
server together with a JSON metadata form field, and writes the JSON-decoded
response to `<stem>.BirdNET.results.json` — and proves the specification's
claims about it.

The embedding covers:
* the Python `json` module as the script uses it: `json.dumps(mdata)`
  (compact, default separators), `json.dump(data, f, indent=4)`
  (pretty-printed, `ensure_ascii`), and `json.loads(text)`;
  JSON numbers are modelled as their source-text tokens, which is faithful
  for every property stated here (the script never computes with numbers);
* the `os.path` functions the script calls on POSIX (`splitext`, `join`,
  `dirname`, `basename`) and `os.makedirs(..., exist_ok=True)`;
* the script's own functions `sendRequest` and `saveResult`, and the
  `__main__` loop, as a deterministic function of an environment that fixes
  the directory listing and the server's per-file responses.
-/

/-! ## JSON values

Python `json` values, with numbers kept as their lexical tokens. -/

inductive JVal where
  | null
  | bool (b : Bool)
  | num (tok : String)
  | str (s : String)
  | arr (items : List JVal)
  | obj (fields : List (String × JVal))

/-- Left brace character, written via its code point. -/
def lbrace : Char := Char.ofNat 123

/-- Right brace character, written via its code point. -/
def rbrace : Char := Char.ofNat 125

/-- JSON whitespace accepted by Python's scanner. -/
def isJsonWs (c : Char) : Bool :=
  c = ' ' || c = '\t' || c = '\n' || c = '\r'

/-- Characters that may occur in a number token. -/
def isNumChar (c : Char) : Bool :=
  c.isDigit || c = '-' || c = '+' || c = '.' || c = 'e' || c = 'E'

/-- Characters that may start a number token. -/
def isNumStart (c : Char) : Bool :=
  c.isDigit || c = '-'

/-- A hexadecimal digit in lowercase, as Python's `\uXXXX` escapes print it. -/
def hexDigit (n : Nat) : Char :=
  if n < 10 then Char.ofNat (48 + n) else Char.ofNat (87 + n)

/-- Four lowercase hex digits of `n < 0x10000`, most significant first. -/
def hex4 (n : Nat) : List Char :=
  [hexDigit (n / 4096 % 16), hexDigit (n / 256 % 16), hexDigit (n / 16 % 16), hexDigit (n % 16)]

/-- Escape of one character inside a JSON string literal, following
`json.dumps` with `ensure_ascii=True`: the two-character escapes for quote,
backslash and the five control shorthands, `\uXXXX` for the remaining
control characters and all non-ASCII code points, and a surrogate pair for
code points beyond the basic multilingual plane. -/
def escapeChar (c : Char) : List Char :=
  if c = '"' then ['\\', '"']
  else if c = '\\' then ['\\', '\\']
  else if c.toNat = 8 then ['\\', 'b']
  else if c.toNat = 9 then ['\\', 't']
  else if c.toNat = 10 then ['\\', 'n']
  else if c.toNat = 12 then ['\\', 'f']
  else if c.toNat = 13 then ['\\', 'r']
  else if c.toNat < 32 then '\\' :: 'u' :: hex4 c.toNat
  else if c.toNat ≤ 126 then [c]
  else if c.toNat < 65536 then '\\' :: 'u' :: hex4 c.toNat
  else
    '\\' :: 'u' :: hex4 (55296 + (c.toNat - 65536) / 1024)
      ++ '\\' :: 'u' :: hex4 (56320 + (c.toNat - 65536) % 1024)

/-- Body of a JSON string literal: every character escaped in sequence. -/
def escapeBody (cs : List Char) : List Char :=
  cs.foldr (fun c acc => escapeChar c ++ acc) []

/-- A full JSON string literal including the surrounding quotes. -/
def escapeString (s : String) : List Char :=
  '"' :: escapeBody s.data ++ ['"']

/-- Indentation emitted by `json.dump(..., indent=4)` at nesting level `lvl`. -/
def jsonIndent (lvl : Nat) : List Char :=
  List.replicate (4 * lvl) ' '

/-! ### Serialization with `indent=4` (used by `saveResult`) -/

mutual
/-- `json.dump(v, f, indent=4)` output at nesting level `lvl`, as characters. -/
def dumpVal : JVal → Nat → List Char
  | .null, _ => "null".data
  | .bool true, _ => "true".data
  | .bool false, _ => "false".data
  | .num t, _ => t.data
  | .str s, _ => escapeString s
  | .arr [], _ => ['[', ']']
  | .arr (x :: xs), lvl =>
      '[' :: '\n' :: jsonIndent (lvl + 1) ++ dumpVal x (lvl + 1) ++ dumpArrRest xs (lvl + 1)
        ++ '\n' :: jsonIndent lvl ++ [']']
  | .obj [], _ => [lbrace, rbrace]
  | .obj (f :: fs), lvl =>
      lbrace :: '\n' :: jsonIndent (lvl + 1) ++ dumpMember f (lvl + 1)
        ++ dumpObjRest fs (lvl + 1) ++ '\n' :: jsonIndent lvl ++ [rbrace]

/-- One `"key": value` object member at nesting level `lvl`. -/
def dumpMember : String × JVal → Nat → List Char
  | (k, v), lvl => escapeString k ++ ':' :: ' ' :: dumpVal v lvl

/-- Remaining array items, each preceded by `,\n` and indentation. -/
def dumpArrRest : List JVal → Nat → List Char
  | [], _ => []
  | x :: xs, lvl => ',' :: '\n' :: jsonIndent lvl ++ dumpVal x lvl ++ dumpArrRest xs lvl

/-- Remaining object members, each preceded by `,\n` and indentation. -/
def dumpObjRest : List (String × JVal) → Nat → List Char
  | [], _ => []
  | f :: fs, lvl => ',' :: '\n' :: jsonIndent lvl ++ dumpMember f lvl ++ dumpObjRest fs lvl
end

/-- `json.dump(v, f, indent=4)`: the exact text written to the result file. -/
def dumps4 (v : JVal) : String :=
  String.mk (dumpVal v 0)

/-! ### Compact serialization (default `json.dumps`, used for the metadata) -/

mutual
/-- `json.dumps(v)` with the default separators `", "` and `": "`. -/
def dumpValC : JVal → List Char
  | .null => "null".data
  | .bool true => "true".data
  | .bool false => "false".data
  | .num t => t.data
  | .str s => escapeString s
  | .arr [] => ['[', ']']
  | .arr (x :: xs) => '[' :: dumpValC x ++ dumpArrRestC xs ++ [']']
  | .obj [] => [lbrace, rbrace]
  | .obj (f :: fs) => lbrace :: dumpMemberC f ++ dumpObjRestC fs ++ [rbrace]

/-- One `"key": value` member in compact form. -/
def dumpMemberC : String × JVal → List Char
  | (k, v) => escapeString k ++ ':' :: ' ' :: dumpValC v

/-- Remaining compact array items, each preceded by `", "`. -/
def dumpArrRestC : List JVal → List Char
  | [] => []
  | x :: xs => ',' :: ' ' :: dumpValC x ++ dumpArrRestC xs

/-- Remaining compact object members, each preceded by `", "`. -/
def dumpObjRestC : List (String × JVal) → List Char
  | [] => []
  | f :: fs => ',' :: ' ' :: dumpMemberC f ++ dumpObjRestC fs
end

/-- `json.dumps(v)` as a string. -/
def dumpsC (v : JVal) : String :=
  String.mk (dumpValC v)

/-! ### Well-formed values

A value is well-formed when every number token is a nonempty run of
number characters starting like a number.  Every value produced by the
parser below is well-formed, and serialization of a well-formed value
parses back to it. -/

/-- Well-formedness of a number token. -/
def numTokOk (t : String) : Bool :=
  match t.data with
  | [] => false
  | c :: cs => isNumStart c && (c :: cs).all isNumChar

mutual
/-- Well-formedness of a JSON value (constraints on number tokens only). -/
def wfVal : JVal → Bool
  | .null => true
  | .bool _ => true
  | .num t => numTokOk t
  | .str _ => true
  | .arr items => wfList items
  | .obj fields => wfFields fields

/-- Well-formedness of every element of a list of values. -/
def wfList : List JVal → Bool
  | [] => true
  | x :: xs => wfVal x && wfList xs

/-- Well-formedness of every value of an association list. -/
def wfFields : List (String × JVal) → Bool
  | [] => true
  | (_, v) :: fs => wfVal v && wfFields fs
end

/-! ### Parsing (`json.loads`)

A fuel-indexed recursive-descent parser over the character list, mirroring
Python's scanner: optional whitespace before every token, the literals
`null`/`true`/`false`, string literals with escape sequences, numbers read
as maximal runs of number characters, and bracketed arrays and objects.
Lone surrogate escapes are rejected (Lean characters are scalar values);
Python would produce a string bearing a lone surrogate there, which no
serialized value of this model ever contains. -/

/-- Value of one hexadecimal digit character. -/
def hexVal (c : Char) : Option Nat :=
  if 48 ≤ c.toNat ∧ c.toNat ≤ 57 then some (c.toNat - 48)
  else if 97 ≤ c.toNat ∧ c.toNat ≤ 102 then some (c.toNat - 87)
  else if 65 ≤ c.toNat ∧ c.toNat ≤ 70 then some (c.toNat - 55)
  else none

/-- Read exactly four hex digits into a number below `0x10000`. -/
def parseHex4 : List Char → Option (Nat × List Char)
  | a :: b :: c :: d :: rest =>
    match hexVal a, hexVal b, hexVal c, hexVal d with
    | some va, some vb, some vc, some vd =>
        some (((va * 16 + vb) * 16 + vc) * 16 + vd, rest)
    | _, _, _, _ => none
  | _ => none

/-- Read the digits of a `\u` escape (the `\u` itself already consumed),
combining a high surrogate with a following `\uXXXX` low surrogate. -/
def parseUEscape (cs : List Char) : Option (Char × List Char) :=
  match parseHex4 cs with
  | none => none
  | some (code, rest) =>
    if 55296 ≤ code ∧ code ≤ 56319 then
      match rest with
      | b :: u :: rest₂ =>
        if b = '\\' ∧ u = 'u' then
          match parseHex4 rest₂ with
          | some (code₂, rest₃) =>
            if 56320 ≤ code₂ ∧ code₂ ≤ 57343 then
              some (Char.ofNat (65536 + (code - 55296) * 1024 + (code₂ - 56320)), rest₃)
            else none
          | none => none
        else none
      | _ => none
    else if 56320 ≤ code ∧ code ≤ 57343 then none
    else some (Char.ofNat code, rest)

/-- Prepend a character to the string under construction. -/
def consStr (c : Char) : Option (List Char × List Char) → Option (List Char × List Char)
  | some (s, r) => some (c :: s, r)
  | none => none

/-- Parse the body of a string literal (opening quote already consumed),
up to and including the closing quote; raw control characters are
rejected, as by Python's strict scanner. -/
def parseStringBody : Nat → List Char → Option (List Char × List Char)
  | 0, _ => none
  | _ + 1, [] => none
  | n + 1, c :: rest =>
    if c = '"' then some ([], rest)
    else if c = '\\' then
      match rest with
      | [] => none
      | e :: r =>
        if e = '"' then consStr '"' (parseStringBody n r)
        else if e = '\\' then consStr '\\' (parseStringBody n r)
        else if e = '/' then consStr '/' (parseStringBody n r)
        else if e = 'b' then consStr (Char.ofNat 8) (parseStringBody n r)
        else if e = 'f' then consStr (Char.ofNat 12) (parseStringBody n r)
        else if e = 'n' then consStr '\n' (parseStringBody n r)
        else if e = 'r' then consStr '\r' (parseStringBody n r)
        else if e = 't' then consStr '\t' (parseStringBody n r)
        else if e = 'u' then
          match parseUEscape r with
          | some (ec, r₂) => consStr ec (parseStringBody n r₂)
          | none => none
        else none
    else if c.toNat < 32 then none
    else consStr c (parseStringBody n rest)

mutual
/-- Parse one JSON value after optional whitespace. -/
def parseVal : Nat → List Char → Option (JVal × List Char)
  | 0, _ => none
  | n + 1, cs =>
    match cs.dropWhile isJsonWs with
    | [] => none
    | c :: rest =>
      if c = lbrace then
        match rest.dropWhile isJsonWs with
        | [] => none
        | d :: rest₂ =>
          if d = rbrace then some (.obj [], rest₂)
          else
            match parseMember n rest with
            | some (f, rest₃) =>
              match parseMembersRest n rest₃ with
              | some (fs, rest₄) => some (.obj (f :: fs), rest₄)
              | none => none
            | none => none
      else if c = '[' then
        match rest.dropWhile isJsonWs with
        | ']' :: rest₂ => some (.arr [], rest₂)
        | _ =>
          match parseVal n rest with
          | some (v, rest₂) =>
            match parseElemsRest n rest₂ with
            | some (vs, rest₃) => some (.arr (v :: vs), rest₃)
            | none => none
          | none => none
      else if c = '"' then
        match parseStringBody n rest with
        | some (sc, rest₂) => some (.str (String.mk sc), rest₂)
        | none => none
      else if isNumStart c then
        some (.num (String.mk ((c :: rest).takeWhile isNumChar)),
              (c :: rest).dropWhile isNumChar)
      else
        match c :: rest with
        | 'n' :: 'u' :: 'l' :: 'l' :: r => some (.null, r)
        | 't' :: 'r' :: 'u' :: 'e' :: r => some (.bool true, r)
        | 'f' :: 'a' :: 'l' :: 's' :: 'e' :: r => some (.bool false, r)
        | _ => none

/-- Parse the array items after the first one: a `]` closes the array, a
`,` introduces the next item. -/
def parseElemsRest : Nat → List Char → Option (List JVal × List Char)
  | 0, _ => none
  | n + 1, cs =>
    match cs.dropWhile isJsonWs with
    | [] => none
    | d :: rest =>
      if d = ']' then some ([], rest)
      else if d = ',' then
        match parseVal n rest with
        | some (v, rest₂) =>
          match parseElemsRest n rest₂ with
          | some (vs, rest₃) => some (v :: vs, rest₃)
          | none => none
        | none => none
      else none

/-- Parse one `"key": value` object member. -/
def parseMember : Nat → List Char → Option ((String × JVal) × List Char)
  | 0, _ => none
  | n + 1, cs =>
    match cs.dropWhile isJsonWs with
    | [] => none
    | q :: rest =>
      if q = '"' then
        match parseStringBody n rest with
        | some (kc, rest₂) =>
          match rest₂.dropWhile isJsonWs with
          | [] => none
          | col :: rest₃ =>
            if col = ':' then
              match parseVal n rest₃ with
              | some (v, rest₄) => some ((String.mk kc, v), rest₄)
              | none => none
            else none
        | none => none
      else none

/-- Parse the object members after the first one: a closing brace ends the
object, a `,` introduces the next member. -/
def parseMembersRest : Nat → List Char → Option (List (String × JVal) × List Char)
  | 0, _ => none
  | n + 1, cs =>
    match cs.dropWhile isJsonWs with
    | [] => none
    | d :: rest =>
      if d = rbrace then some ([], rest)
      else if d = ',' then
        match parseMember n rest with
        | some (f, rest₂) =>
          match parseMembersRest n rest₂ with
          | some (fs, rest₃) => some (f :: fs, rest₃)
          | none => none
        | none => none
      else none
end

/-- `json.loads`: parse a complete document, allowing trailing whitespace
only. -/
def loads (s : String) : Option JVal :=
  match parseVal (s.data.length + 1) s.data with
  | some (v, rest) => if rest.dropWhile isJsonWs = [] then some v else none
  | none => none

example : loads "null" = some .null := rfl
example : loads " [1, true, \"a\"] " = some (.arr [.num "1", .bool true, .str "a"]) := rfl
example : loads "\x7b\"species\": []\x7d" = some (.obj [("species", .arr [])]) := rfl
example : loads "\x7b\"a\": -1.0\x7d" = some (.obj [("a", .num "-1.0")]) := rfl
example : loads "nope" = none := rfl
example : loads "\"a\\u0041\\n\"" = some (.str "aA\n") := rfl
example : dumps4 (.obj [("species", .arr [.str "x"])]) = "\x7b\n    \"species\": [\n        \"x\"\n    ]\n\x7d" := rfl
example : loads (dumps4 (.obj [("species", .arr [.str "x", .num "2"])])) = some (.obj [("species", .arr [.str "x", .num "2"])]) := rfl
example : dumpsC (.obj [("lat", .num "-1.0"), ("save", .bool false)]) = "\x7b\"lat\": -1.0, \"save\": false\x7d" := rfl

/-! ## POSIX path functions used by the script -/

/-- Root component of `os.path.splitext` on a directory entry (the entries
returned by `os.listdir` contain no separator): split at the final dot,
except that a name whose characters before the final dot are all dots is
returned whole. -/
def splitextRoot (name : String) : String :=
  let r := name.data.reverse
  match r.dropWhile (fun c => c ≠ '.') with
  | [] => name
  | _ :: pre => if pre.any (fun c => c ≠ '.') then String.mk pre.reverse else name

/-- Extension component of `os.path.splitext` on a directory entry. -/
def splitextExt (name : String) : String :=
  let r := name.data.reverse
  match r.dropWhile (fun c => c ≠ '.') with
  | [] => ""
  | dot :: pre =>
    if pre.any (fun c => c ≠ '.') then
      String.mk (dot :: r.takeWhile (fun c => c ≠ '.')).reverse
    else ""

/-- Whether a name has a nonempty `splitext` extension: some dot is
preceded by a character that is not a dot. -/
def hasProperExt (name : String) : Bool :=
  match name.data.reverse.dropWhile (fun c => c ≠ '.') with
  | [] => false
  | _ :: pre => pre.any (fun c => c ≠ '.')

/-- `os.path.join` on POSIX for two components, as the script uses it. -/
def pathJoin (a b : String) : String :=
  if b.data.head? = some '/' then b
  else if a = "" || a.data.reverse.head? = some '/' then a ++ b
  else a ++ "/" ++ b

/-- `os.path.dirname` on POSIX: the part before the final slash, with
trailing slashes stripped unless the result is all slashes. -/
def dirname (p : String) : String :=
  let rest := p.data.reverse.dropWhile (fun c => c ≠ '/')
  if rest.isEmpty then ""
  else if rest.all (fun c => c = '/') then String.mk rest.reverse
  else String.mk ((rest.dropWhile (fun c => c = '/')).reverse)

/-- `os.path.basename` on POSIX: the part after the final slash. -/
def basename (p : String) : String :=
  String.mk (p.data.reverse.takeWhile (fun c => c ≠ '/')).reverse

example : splitextRoot "soundscape.wav" = "soundscape" := rfl
example : splitextRoot "a.b.mp3" = "a.b" := rfl
example : splitextRoot ".wav" = ".wav" := rfl
example : splitextRoot "wav" = "wav" := rfl
example : dirname "out/a.json" = "out" := rfl
example : dirname "a.json" = "" := rfl
example : pathJoin "example/" "a.wav" = "example/a.wav" := rfl
example : pathJoin "out" "a.json" = "out/a.json" := rfl
example : basename "example/a.wav" = "a.wav" := rfl

/-- The chain of a path and its ancestors obtained by iterating
`dirname`, as far as it goes (fuel-bounded by the path length). -/
def dirChain : Nat → String → List String
  | 0, _ => []
  | n + 1, p => if p = "" then [] else p :: dirChain n (dirname p)

/-- A directory path together with all its `dirname` ancestors. -/
def pathWithAncestors (p : String) : List String :=
  dirChain (p.length + 1) p

/-- `os.makedirs(p, exist_ok=True)` on a set of existing directories:
afterwards `p` and all its ancestors exist, previously existing
directories are untouched, and no error occurs when `p` already exists. -/
def makedirs (ds : List String) (p : String) : List String :=
  pathWithAncestors p ++ ds

/-! ## The filesystem state seen by the script

Directories that exist and, for result files, the list of performed
writes, most recent first (a lookup finds the most recent write, so a
later write to the same path overwrites an earlier one). -/

structure FS where
  dirs : List String
  files : List (String × String)

/-- Content at a path: the most recently written one. -/
def FS.content (fs : FS) (p : String) : Option String :=
  (fs.files.find? (fun e => e.1 = p)).map (fun e => e.2)

/-- `saveResult(data, fpath)` from `newClient.py`: create the destination
directory (with intermediate directories, no error if present), then
write the response serialized with `indent=4`. -/
def saveResult (fs : FS) (data : JVal) (fpath : String) : FS :=
  let fs₁ : FS := { fs with dirs := makedirs fs.dirs (dirname fpath) }
  { fs₁ with files := (fpath, dumps4 data) :: fs₁.files }

/-! ## Run configuration

`argparse` results, one field per flag.  The numeric flags are carried as
the number tokens their values serialize to (`--lat`, `--lon`,
`--overlap`, `--sensitivity`, `--sf_thresh` are floats, `--week` and
`--num_results` are ints). -/

structure Config where
  host : String
  port : Nat
  i : String
  o : String
  lat : String
  lon : String
  week : String
  overlap : String
  sensitivity : String
  sf_thresh : String
  pmode : String
  num_results : String
  save : Bool

/-- The defaults of the argument parser. `argparse` applies the `type=`
callable to a default only when the default is a string, so
`--lat`/`--lon` with `type=float, default=-1` keep the int `-1` when
unset, and `json.dumps` serializes them as `-1` (not `-1.0`). The other
numeric defaults are written as the literals of the source
(`0.0`, `1.0`, `0.03`, `5`). -/
def defaultConfig : Config :=
  { host := "localhost", port := 8080, i := "example/", o := ""
    lat := "-1", lon := "-1", week := "-1", overlap := "0.0"
    sensitivity := "1.0", sf_thresh := "0.03", pmode := "avg"
    num_results := "5", save := false }

/-- The `mdata` dictionary built in `__main__`, in insertion order. -/
def mdata (cfg : Config) : JVal :=
  .obj [("lat", .num cfg.lat), ("lon", .num cfg.lon), ("week", .num cfg.week),
        ("overlap", .num cfg.overlap), ("sensitivity", .num cfg.sensitivity),
        ("sf_thresh", .num cfg.sf_thresh), ("pmode", .str cfg.pmode),
        ("num_results", .num cfg.num_results), ("save", .bool cfg.save)]

/-- `json.dumps(mdata)`: the metadata string passed to `sendRequest`. -/
def mdataStr (cfg : Config) : String :=
  dumpsC (mdata cfg)

/-- `output_directory = args.o if args.o else input_directory`. -/
def outputDirectory (cfg : Config) : String :=
  if cfg.o = "" then cfg.i else cfg.o

/-- The extension filter of the `__main__` loop:
`audio_file.endswith(".wav") or audio_file.endswith(".mp3")`,
a case-sensitive suffix match. -/
def isCandidate (name : String) : Bool :=
  List.isSuffixOf ".wav".data name.data || List.isSuffixOf ".mp3".data name.data

/-- The derived result file name:
`os.path.splitext(audio_file)[0] + ".BirdNET.results.json"`. -/
def resultFileName (audioFile : String) : String :=
  splitextRoot audioFile ++ ".BirdNET.results.json"

example : isCandidate "soundscape.wav" = true := rfl
example : isCandidate "notes.txt" = false := rfl
example : isCandidate "A.WAV" = false := rfl
example : resultFileName "soundscape.wav" = "soundscape.BirdNET.results.json" := rfl

/-! ## The client run

The environment fixes what the outside world does: the directory listing
`os.listdir` returns, whether each audio file can be opened, and the
server's response (HTTP status and body text) per audio file path, with
`none` standing for a transport failure. -/

structure Env where
  listing : List String
  readable : String → Bool
  respond : String → Option (Nat × String)

/-- One issued HTTP request: the `/analyze` URL, the path of the uploaded
file, the `audio` part's file name, and the `meta` form field. -/
structure Request where
  url : String
  fpath : String
  audioName : String
  meta : String
  deriving DecidableEq

/-- The ways one file's processing can fail: the three fatal error classes
of the script (file unreadable, transport failure, undecodable body). -/
inductive ClientError where
  | ioError (path : String)
  | netError (path : String)
  | decodeError (body : String)

/-- `json.loads(response.text)` inside `sendRequest`: the status code is
not consulted; an undecodable body is a decode error, never a fallback. -/
def decodeResponse (resp : Nat × String) : Except ClientError JVal :=
  match loads resp.2 with
  | some v => .ok v
  | none => .error (.decodeError resp.2)

/-- The URL `f"http://{host}:{port}/analyze"`. -/
def analyzeUrl (host : String) (port : Nat) : String :=
  "http://" ++ host ++ ":" ++ Nat.repr port ++ "/analyze"

/-- `sendRequest(host, port, fpath, mdata)`: open the file (an unreadable
file raises before any request is made), POST the multipart form, and
JSON-decode the response body.  Returns the requests actually issued
(none or one) along with the decoded result or the error raised. -/
def sendRequest (env : Env) (host : String) (port : Nat) (fpath : String)
    (mdataArg : String) : List Request × Except ClientError JVal :=
  if env.readable fpath then
    let req : Request :=
      { url := analyzeUrl host port, fpath := fpath
        audioName := basename fpath, meta := mdataArg }
    match env.respond fpath with
    | some resp => ([req], decodeResponse resp)
    | none => ([req], .error (.netError fpath))
  else ([], .error (.ioError fpath))

/-- State accumulated by the `__main__` loop: the requests issued so far
(in order) and the filesystem. -/
structure RunState where
  requests : List Request
  fs : FS

/-- One iteration of the `__main__` loop on directory entry `audioFile`:
skip non-candidates; otherwise send the request and save the result,
stopping with the error if any step raises. -/
def step (env : Env) (cfg : Config) (st : RunState) (audioFile : String) :
    RunState × Option ClientError :=
  if isCandidate audioFile then
    let audioFilePath := pathJoin cfg.i audioFile
    let sr := sendRequest env cfg.host cfg.port audioFilePath (mdataStr cfg)
    let st₁ : RunState := { st with requests := st.requests ++ sr.1 }
    match sr.2 with
    | .ok data =>
      let resultFilePath := pathJoin (outputDirectory cfg) (resultFileName audioFile)
      ({ st₁ with fs := saveResult st₁.fs data resultFilePath }, none)
    | .error e => (st₁, some e)
  else (st, none)

/-- The `__main__` loop over the remaining directory entries: the first
error aborts the batch, leaving the state reached so far. -/
def runGo (env : Env) (cfg : Config) : List String → RunState → RunState × Option ClientError
  | [], st => (st, none)
  | f :: rest, st =>
    match step env cfg st f with
    | (st', none) => runGo env cfg rest st'
    | (st', some e) => (st', some e)

/-- The initial state: no requests issued, the given filesystem. -/
def initState (fs₀ : FS) : RunState :=
  { requests := [], fs := fs₀ }

/-- A whole run of the client over the environment's directory listing. -/
def runClient (env : Env) (cfg : Config) (fs₀ : FS) : RunState × Option ClientError :=
  runGo env cfg env.listing (initState fs₀)

/-! ## Character-level helper lemmas -/

theorem charEq_iff_toNat (c d : Char) : c = d ↔ c.toNat = d.toNat := by
  constructor
  · intro h; rw [h]
  · intro h
    have hc := Char.ofNat_toNat c
    have hd := Char.ofNat_toNat d
    rw [← hc, ← hd, h]

theorem char_valid_ranges (c : Char) :
    c.toNat < 55296 ∨ (57343 < c.toNat ∧ c.toNat < 1114112) := by
  have h := c.valid
  simp only [UInt32.isValidChar, Nat.isValidChar] at h
  exact h

theorem char_toNat_ofNat (n : Nat) (h : Nat.isValidChar n) : (Char.ofNat n).toNat = n := by
  unfold Char.ofNat
  rw [dif_pos h]
  rfl

theorem isDigit_iff_toNat (c : Char) : c.isDigit = true ↔ 48 ≤ c.toNat ∧ c.toNat ≤ 57 := by
  simp only [Char.isDigit, Bool.and_eq_true, decide_eq_true_eq, Char.le_def]
  exact Iff.rfl

theorem isNumStart_toNat (c : Char) (h : isNumStart c = true) :
    c.toNat = 45 ∨ (48 ≤ c.toNat ∧ c.toNat ≤ 57) := by
  simp only [isNumStart, Bool.or_eq_true, decide_eq_true_eq] at h
  rcases h with h | h
  · right; exact (isDigit_iff_toNat c).mp h
  · left; rw [h]; rfl

theorem numStart_not_ws (c : Char) (h : isNumStart c = true) : isJsonWs c = false := by
  have hr := isNumStart_toNat c h
  simp only [isJsonWs, Bool.or_eq_false_iff, decide_eq_false_iff_not, charEq_iff_toNat,
    show (' ' : Char).toNat = 32 from rfl, show ('\t' : Char).toNat = 9 from rfl,
    show ('\n' : Char).toNat = 10 from rfl, show ('\r' : Char).toNat = 13 from rfl]
  omega

theorem numStart_ne_delims (c : Char) (h : isNumStart c = true) :
    c ≠ lbrace ∧ c ≠ '[' ∧ c ≠ '"' ∧ c ≠ ']' := by
  have hr := isNumStart_toNat c h
  simp only [Ne, charEq_iff_toNat, show lbrace.toNat = 123 from rfl,
    show ('[' : Char).toNat = 91 from rfl, show ('"' : Char).toNat = 34 from rfl,
    show (']' : Char).toNat = 93 from rfl]
  omega

theorem numStart_isNumChar (c : Char) (h : isNumStart c = true) : isNumChar c = true := by
  simp only [isNumStart, Bool.or_eq_true] at h
  simp only [isNumChar, Bool.or_eq_true]
  tauto

/-! ## List scanning helper lemmas -/

theorem dropWhile_append_all {p : Char → Bool} (l₁ l₂ : List Char)
    (h : ∀ c ∈ l₁, p c = true) : (l₁ ++ l₂).dropWhile p = l₂.dropWhile p := by
  induction l₁ with
  | nil => rfl
  | cons a l ih =>
    have ha := h a (by simp)
    simp only [List.cons_append, List.dropWhile_cons, ha, if_true]
    exact ih (fun c hc => h c (by simp [hc]))

theorem dropWhile_cons_neg {p : Char → Bool} (c : Char) (tl : List Char)
    (h : p c = false) : (c :: tl).dropWhile p = c :: tl := by
  simp [List.dropWhile_cons, h]

theorem takeWhile_append_all {p : Char → Bool} (l₁ l₂ : List Char)
    (h : ∀ c ∈ l₁, p c = true) : (l₁ ++ l₂).takeWhile p = l₁ ++ l₂.takeWhile p := by
  induction l₁ with
  | nil => rfl
  | cons a l ih =>
    have ha := h a (by simp)
    simp only [List.cons_append, List.takeWhile_cons, ha, if_true, List.cons.injEq, true_and]
    exact ih (fun c hc => h c (by simp [hc]))

theorem jsonIndent_all_ws (lvl : Nat) : ∀ c ∈ jsonIndent lvl, isJsonWs c = true := by
  intro c hc
  have := List.eq_of_mem_replicate hc
  rw [this]; rfl

/-- The separator context that can follow a serialized value: nothing, or a
character that cannot extend a number token. -/
def sepOk : List Char → Prop
  | [] => True
  | c :: _ => isNumChar c = false

theorem takeWhile_sepOk (l : List Char) (h : sepOk l) : l.takeWhile isNumChar = [] := by
  cases l with
  | nil => rfl
  | cons c tl => simp [List.takeWhile_cons, sepOk] at h ⊢; simp [h]

theorem dropWhile_sepOk (l : List Char) (h : sepOk l) : l.dropWhile isNumChar = l := by
  cases l with
  | nil => rfl
  | cons c tl => simp [sepOk] at h; simp [List.dropWhile_cons, h]

/-! ## Hex and escape round-trip lemmas -/

theorem hexVal_hexDigit (k : Nat) (h : k < 16) : hexVal (hexDigit k) = some k := by
  unfold hexDigit hexVal
  by_cases hk : k < 10
  · rw [if_pos hk]
    have ht : (Char.ofNat (48 + k)).toNat = 48 + k :=
      char_toNat_ofNat _ (Or.inl (by omega))
    rw [ht] at *
    rw [if_pos ⟨by omega, by omega⟩]
    congr 1
    omega
  · rw [if_neg hk]
    have ht : (Char.ofNat (87 + k)).toNat = 87 + k :=
      char_toNat_ofNat _ (Or.inl (by omega))
    rw [ht] at *
    rw [if_neg (by omega), if_pos ⟨by omega, by omega⟩]
    congr 1
    omega

theorem parseHex4_hex4 (m : Nat) (h : m < 65536) (rest : List Char) :
    parseHex4 (hex4 m ++ rest) = some (m, rest) := by
  unfold hex4
  simp only [List.cons_append, List.nil_append, parseHex4]
  rw [hexVal_hexDigit _ (by omega), hexVal_hexDigit _ (by omega),
    hexVal_hexDigit _ (by omega), hexVal_hexDigit _ (by omega)]
  simp only [Option.some.injEq, Prod.mk.injEq, and_true]
  omega

theorem parseStringBody_u (n : Nat) (Y : List Char) :
    parseStringBody (n + 1) ('\\' :: 'u' :: Y) =
      match parseUEscape Y with
      | some (e, r₂) => consStr e (parseStringBody n r₂)
      | none => none := by
  simp +decide [parseStringBody]

theorem parseStringBody_lit (n : Nat) (c : Char) (tl : List Char)
    (h1 : ¬c = '"') (h2 : ¬c = '\\') (h3 : ¬c.toNat < 32) :
    parseStringBody (n + 1) (c :: tl) = consStr c (parseStringBody n tl) := by
  simp only [parseStringBody]
  rw [if_neg h1, if_neg h2, if_neg h3]

theorem parseUEscape_hex_bmp (m : Nat) (h : m < 65536)
    (hno : ¬(55296 ≤ m ∧ m ≤ 57343)) (tl : List Char) :
    parseUEscape (hex4 m ++ tl) = some (Char.ofNat m, tl) := by
  unfold parseUEscape
  rw [parseHex4_hex4 m h]
  dsimp only
  rw [if_neg (by omega), if_neg (by omega)]

theorem parseUEscape_pair (hi lo : Nat) (hhi1 : 55296 ≤ hi) (hhi2 : hi ≤ 56319)
    (hlo1 : 56320 ≤ lo) (hlo2 : lo ≤ 57343) (tl : List Char) :
    parseUEscape (hex4 hi ++ ('\\' :: 'u' :: (hex4 lo ++ tl)))
      = some (Char.ofNat (65536 + (hi - 55296) * 1024 + (lo - 56320)), tl) := by
  unfold parseUEscape
  rw [parseHex4_hex4 _ (by omega)]
  dsimp only
  rw [if_pos (⟨hhi1, hhi2⟩ : 55296 ≤ hi ∧ hi ≤ 56319)]
  rw [if_pos (⟨rfl, rfl⟩ : ('\\' : Char) = '\\' ∧ ('u' : Char) = 'u')]
  rw [parseHex4_hex4 _ (by omega)]
  dsimp only
  rw [if_pos (⟨hlo1, hlo2⟩ : 56320 ≤ lo ∧ lo ≤ 57343)]

theorem parseStringBody_escStep (c : Char) (tail : List Char) (n : Nat) :
    parseStringBody (n + 1) (escapeChar c ++ tail) = consStr c (parseStringBody n tail) := by
  by_cases h1 : c = '"'
  · subst h1; rfl
  by_cases h2 : c = '\\'
  · subst h2; rfl
  by_cases h3 : c.toNat = 8
  · have he : escapeChar c = ['\\', 'b'] := by
      unfold escapeChar; rw [if_neg h1, if_neg h2, if_pos h3]
    rw [he]
    have hc : Char.ofNat 8 = c := by rw [← h3, Char.ofNat_toNat]
    show consStr (Char.ofNat 8) (parseStringBody n tail) = _
    rw [hc]
  by_cases h4 : c.toNat = 9
  · have he : escapeChar c = ['\\', 't'] := by
      unfold escapeChar; rw [if_neg h1, if_neg h2, if_neg h3, if_pos h4]
    rw [he]
    have hc : Char.ofNat 9 = c := by rw [← h4, Char.ofNat_toNat]
    show consStr '\t' (parseStringBody n tail) = _
    rw [show '\t' = Char.ofNat 9 from rfl, hc]
  by_cases h5 : c.toNat = 10
  · have he : escapeChar c = ['\\', 'n'] := by
      unfold escapeChar; rw [if_neg h1, if_neg h2, if_neg h3, if_neg h4, if_pos h5]
    rw [he]
    have hc : Char.ofNat 10 = c := by rw [← h5, Char.ofNat_toNat]
    show consStr '\n' (parseStringBody n tail) = _
    rw [show '\n' = Char.ofNat 10 from rfl, hc]
  by_cases h6 : c.toNat = 12
  · have he : escapeChar c = ['\\', 'f'] := by
      unfold escapeChar; rw [if_neg h1, if_neg h2, if_neg h3, if_neg h4, if_neg h5, if_pos h6]
    rw [he]
    have hc : Char.ofNat 12 = c := by rw [← h6, Char.ofNat_toNat]
    show consStr (Char.ofNat 12) (parseStringBody n tail) = _
    rw [hc]
  by_cases h7 : c.toNat = 13
  · have he : escapeChar c = ['\\', 'r'] := by
      unfold escapeChar
      rw [if_neg h1, if_neg h2, if_neg h3, if_neg h4, if_neg h5, if_neg h6, if_pos h7]
    rw [he]
    have hc : Char.ofNat 13 = c := by rw [← h7, Char.ofNat_toNat]
    show consStr '\r' (parseStringBody n tail) = _
    rw [show '\r' = Char.ofNat 13 from rfl, hc]
  by_cases h8 : c.toNat < 32
  · have he : escapeChar c = '\\' :: 'u' :: hex4 c.toNat := by
      unfold escapeChar
      rw [if_neg h1, if_neg h2, if_neg h3, if_neg h4, if_neg h5, if_neg h6, if_neg h7, if_pos h8]
    rw [he]
    simp only [List.cons_append]
    rw [parseStringBody_u]
    rw [parseUEscape_hex_bmp c.toNat (by omega) (by omega) tail]
    rw [Char.ofNat_toNat]
  by_cases h9 : c.toNat ≤ 126
  · have he : escapeChar c = [c] := by
      unfold escapeChar
      rw [if_neg h1, if_neg h2, if_neg h3, if_neg h4, if_neg h5, if_neg h6, if_neg h7,
        if_neg h8, if_pos h9]
    rw [he]
    exact parseStringBody_lit n c tail h1 h2 h8
  by_cases h10 : c.toNat < 65536
  · have he : escapeChar c = '\\' :: 'u' :: hex4 c.toNat := by
      unfold escapeChar
      rw [if_neg h1, if_neg h2, if_neg h3, if_neg h4, if_neg h5, if_neg h6, if_neg h7,
        if_neg h8, if_neg h9, if_pos h10]
    rw [he]
    simp only [List.cons_append]
    rw [parseStringBody_u]
    have hval := char_valid_ranges c
    rw [parseUEscape_hex_bmp c.toNat h10 (by omega) tail]
    rw [Char.ofNat_toNat]
  · have he : escapeChar c = '\\' :: 'u' :: hex4 (55296 + (c.toNat - 65536) / 1024)
        ++ '\\' :: 'u' :: hex4 (56320 + (c.toNat - 65536) % 1024) := by
      unfold escapeChar
      rw [if_neg h1, if_neg h2, if_neg h3, if_neg h4, if_neg h5, if_neg h6, if_neg h7,
        if_neg h8, if_neg h9, if_neg h10]
    rw [he]
    simp only [List.cons_append, List.append_assoc]
    rw [parseStringBody_u]
    have hval := char_valid_ranges c
    rw [parseUEscape_pair (55296 + (c.toNat - 65536) / 1024)
      (56320 + (c.toNat - 65536) % 1024) (by omega) (by omega) (by omega) (by omega) tail]
    have harith : 65536 + (55296 + (c.toNat - 65536) / 1024 - 55296) * 1024
        + (56320 + (c.toNat - 65536) % 1024 - 56320) = c.toNat := by omega
    rw [harith, Char.ofNat_toNat]

theorem hex4_length (n : Nat) : (hex4 n).length = 4 := rfl

theorem escapeChar_length_pos (c : Char) : 1 ≤ (escapeChar c).length := by
  unfold escapeChar
  by_cases h1 : c = '"'
  · rw [if_pos h1]; simp
  rw [if_neg h1]
  by_cases h2 : c = '\\'
  · rw [if_pos h2]; simp
  rw [if_neg h2]
  by_cases h3 : c.toNat = 8
  · rw [if_pos h3]; simp
  rw [if_neg h3]
  by_cases h4 : c.toNat = 9
  · rw [if_pos h4]; simp
  rw [if_neg h4]
  by_cases h5 : c.toNat = 10
  · rw [if_pos h5]; simp
  rw [if_neg h5]
  by_cases h6 : c.toNat = 12
  · rw [if_pos h6]; simp
  rw [if_neg h6]
  by_cases h7 : c.toNat = 13
  · rw [if_pos h7]; simp
  rw [if_neg h7]
  by_cases h8 : c.toNat < 32
  · rw [if_pos h8]; simp
  rw [if_neg h8]
  by_cases h9 : c.toNat ≤ 126
  · rw [if_pos h9]; simp
  rw [if_neg h9]
  by_cases h10 : c.toNat < 65536
  · rw [if_pos h10]; simp
  rw [if_neg h10]
  simp

theorem escapeBody_cons (c : Char) (cs : List Char) :
    escapeBody (c :: cs) = escapeChar c ++ escapeBody cs := rfl

theorem escapeBody_length (cs : List Char) : cs.length ≤ (escapeBody cs).length := by
  induction cs with
  | nil => simp [escapeBody]
  | cons c cs ih =>
    rw [escapeBody_cons, List.length_append, List.length_cons]
    have := escapeChar_length_pos c
    omega

theorem parseStringBody_escBody (cs : List Char) (tail : List Char) :
    ∀ n, cs.length < n →
    parseStringBody n (escapeBody cs ++ '"' :: tail) = some (cs, tail) := by
  induction cs with
  | nil =>
    intro n hn
    obtain ⟨m, rfl⟩ : ∃ m, n = m + 1 := ⟨n - 1, by omega⟩
    rfl
  | cons c cs ih =>
    intro n hn
    obtain ⟨m, rfl⟩ : ∃ m, n = m + 1 := ⟨n - 1, by omega⟩
    rw [escapeBody_cons, List.append_assoc, parseStringBody_escStep,
      ih m (by simp at hn; omega)]
    rfl

/-- Parsing a serialized string literal (with the opening quote already
consumed) recovers the original characters. -/
theorem parseStringBody_escString (s : String) (tail : List Char) (n : Nat)
    (hn : s.data.length < n) :
    parseStringBody n (escapeBody s.data ++ '"' :: tail) = some (s.data, tail) :=
  parseStringBody_escBody s.data tail n hn

/-- The first character of a serialized value: never whitespace and never a
closing bracket. -/
theorem dumpHead (v : JVal) (hwf : wfVal v = true) (lvl : Nat) :
    ∃ c tl, dumpVal v lvl = c :: tl ∧ isJsonWs c = false ∧ c ≠ ']' := by
  cases v with
  | null => exact ⟨'n', _, rfl, rfl, by decide⟩
  | bool b => cases b with
    | true => exact ⟨'t', _, rfl, rfl, by decide⟩
    | false => exact ⟨'f', _, rfl, rfl, by decide⟩
  | num t =>
    simp only [wfVal, numTokOk] at hwf
    cases ht : t.data with
    | nil => rw [ht] at hwf; simp at hwf
    | cons c cs =>
      rw [ht] at hwf
      simp only [Bool.and_eq_true] at hwf
      refine ⟨c, cs, ?_, numStart_not_ws c hwf.1, (numStart_ne_delims c hwf.1).2.2.2⟩
      show t.data = c :: cs
      exact ht
  | str s => exact ⟨'"', _, rfl, rfl, by decide⟩
  | arr items => cases items with
    | nil => exact ⟨'[', _, rfl, rfl, by decide⟩
    | cons x xs => exact ⟨'[', _, rfl, rfl, by decide⟩
  | obj fields => cases fields with
    | nil => exact ⟨lbrace, _, rfl, by decide, by decide⟩
    | cons f fs => exact ⟨lbrace, _, rfl, by decide, by decide⟩

theorem stringMk_data : ∀ t : String, String.mk t.data = t
  | ⟨_⟩ => rfl

theorem nl_indent_ws (k : Nat) : ∀ c ∈ '\n' :: jsonIndent k, isJsonWs c = true := by
  intro c hc
  rcases List.mem_cons.mp hc with h | h
  · rw [h]; rfl
  · exact jsonIndent_all_ws k c h

theorem sepOk_dumpArrRest (xs : List JVal) (lvl klvl : Nat) (rest : List Char) :
    sepOk (dumpArrRest xs lvl ++ '\n' :: jsonIndent klvl ++ ']' :: rest) := by
  cases xs with
  | nil => show isNumChar '\n' = false; rfl
  | cons y ys => show isNumChar ',' = false; rfl

theorem sepOk_dumpObjRest (fs : List (String × JVal)) (lvl klvl : Nat) (rest : List Char) :
    sepOk (dumpObjRest fs lvl ++ '\n' :: jsonIndent klvl ++ rbrace :: rest) := by
  cases fs with
  | nil => show isNumChar '\n' = false; rfl
  | cons f fs => show isNumChar ',' = false; rfl

/-- Leading JSON whitespace is transparent to the value parser. -/
theorem parseVal_ws (n : Nat) (ws cs : List Char) (hws : ∀ c ∈ ws, isJsonWs c = true) :
    parseVal (n + 1) (ws ++ cs) = parseVal (n + 1) cs := by
  simp only [parseVal]
  rw [dropWhile_append_all ws cs hws]

theorem sizeOf_prod (p : String × JVal) : sizeOf p = 1 + sizeOf p.1 + sizeOf p.2 := by
  obtain ⟨k, v⟩ := p
  simp

theorem wfFields_cons (f : String × JVal) (fs : List (String × JVal)) :
    wfFields (f :: fs) = (wfVal f.2 && wfFields fs) := by
  obtain ⟨k, v⟩ := f
  rfl

theorem parseMember_ws (n : Nat) (ws cs : List Char) (hws : ∀ c ∈ ws, isJsonWs c = true) :
    parseMember (n + 1) (ws ++ cs) = parseMember (n + 1) cs := by
  simp only [parseMember]
  rw [dropWhile_append_all ws cs hws]

mutual
/-- Serialization with `indent=4` parses back to the value it came from
(modulo leading whitespace and a separator-safe continuation). -/
theorem parse_dumpVal (v : JVal) (hwf : wfVal v = true) (lvl : Nat)
    (ws rest : List Char) (hws : ∀ c ∈ ws, isJsonWs c = true) (hsep : sepOk rest)
    (n : Nat) (hn : (ws ++ dumpVal v lvl ++ rest).length < n) :
    parseVal n (ws ++ (dumpVal v lvl ++ rest)) = some (v, rest) := by
  obtain ⟨m, rfl⟩ : ∃ m, n = m + 1 := ⟨n - 1, by omega⟩
  rw [parseVal_ws m ws _ hws]
  cases v with
  | null => rfl
  | bool b => cases b with
    | false => rfl
    | true => rfl
  | num t =>
    have hwf' : numTokOk t = true := hwf
    unfold numTokOk at hwf'
    cases ht : t.data with
    | nil => rw [ht] at hwf'; exact absurd hwf' (by simp)
    | cons c cs =>
      rw [ht] at hwf'
      simp only [Bool.and_eq_true] at hwf'
      obtain ⟨hstart, hall⟩ := hwf'
      have hne := numStart_ne_delims c hstart
      have hallmem : ∀ d ∈ c :: cs, isNumChar d = true := List.all_eq_true.mp hall
      have hdump : dumpVal (.num t) lvl = c :: cs := ht
      rw [hdump]
      simp only [parseVal, List.cons_append]
      rw [dropWhile_cons_neg _ _ (numStart_not_ws c hstart)]
      dsimp only
      rw [if_neg hne.1, if_neg hne.2.1, if_neg hne.2.2.1, if_pos hstart]
      have hshape : c :: (cs ++ rest) = (c :: cs) ++ rest := rfl
      have htake : (c :: (cs ++ rest)).takeWhile isNumChar = c :: cs := by
        rw [hshape, takeWhile_append_all _ _ hallmem, takeWhile_sepOk rest hsep,
          List.append_nil]
      have hdrop : (c :: (cs ++ rest)).dropWhile isNumChar = rest := by
        rw [hshape, dropWhile_append_all _ _ hallmem, dropWhile_sepOk rest hsep]
      rw [htake, hdrop, ← ht, stringMk_data]
  | str s =>
    have hdump : dumpVal (.str s) lvl ++ rest
        = '"' :: (escapeBody s.data ++ '"' :: rest) := by
      show escapeString s ++ rest = _
      simp [escapeString]
    have hlen : (dumpVal (.str s) lvl).length = (escapeBody s.data).length + 2 := by
      show (escapeString s).length = _
      simp [escapeString]
    have hbound : s.data.length < m := by
      have hel := escapeBody_length s.data
      simp only [List.length_append] at hn
      omega
    rw [hdump]
    simp only [parseVal]
    rw [dropWhile_cons_neg _ _ (by rfl)]
    dsimp only
    rw [if_neg (by decide : ¬('"' : Char) = lbrace),
      if_neg (by decide : ¬('"' : Char) = '['), if_pos (rfl : ('"' : Char) = '"')]
    rw [parseStringBody_escString s rest m hbound]
  | arr items => cases items with
    | nil => rfl
    | cons x xs =>
      simp only [wfVal, wfList, Bool.and_eq_true] at hwf
      obtain ⟨hwx, hwxs⟩ := hwf
      have hdump : dumpVal (.arr (x :: xs)) lvl ++ rest
          = '[' :: (('\n' :: jsonIndent (lvl + 1))
            ++ (dumpVal x (lvl + 1)
              ++ (dumpArrRest xs (lvl + 1) ++ '\n' :: jsonIndent lvl ++ ']' :: rest))) := by
        show '[' :: '\n' :: jsonIndent (lvl + 1) ++ dumpVal x (lvl + 1)
            ++ dumpArrRest xs (lvl + 1) ++ '\n' :: jsonIndent lvl ++ [']'] ++ rest = _
        simp
      rw [hdump]
      have hlen := congrArg List.length hdump
      simp only [List.length_append, List.length_cons] at hlen hn
      simp only [parseVal]
      rw [dropWhile_cons_neg _ _ (by rfl)]
      dsimp only
      rw [if_neg (by decide : ¬('[' : Char) = lbrace), if_pos (rfl : ('[' : Char) = '[')]
      obtain ⟨ch, ctl, hx, hcw, hcne⟩ := dumpHead x hwx (lvl + 1)
      have hscrut : (('\n' :: jsonIndent (lvl + 1))
          ++ (dumpVal x (lvl + 1)
            ++ (dumpArrRest xs (lvl + 1) ++ '\n' :: jsonIndent lvl ++ ']' :: rest))).dropWhile isJsonWs
          = ch :: (ctl ++ (dumpArrRest xs (lvl + 1) ++ '\n' :: jsonIndent lvl ++ ']' :: rest)) := by
        rw [hx, dropWhile_append_all _ _ (nl_indent_ws (lvl + 1)), List.cons_append,
          dropWhile_cons_neg _ _ hcw]
      rw [hscrut]
      split
      · rename_i rest₂ heq
        injection heq with h1 _
        exact absurd h1 hcne
      · rw [parse_dumpVal x hwx (lvl + 1) ('\n' :: jsonIndent (lvl + 1))
          (dumpArrRest xs (lvl + 1) ++ '\n' :: jsonIndent lvl ++ ']' :: rest)
          (nl_indent_ws (lvl + 1)) (sepOk_dumpArrRest xs (lvl + 1) lvl rest) m
          (by simp only [List.length_append, List.length_cons]; omega)]
        dsimp only
        rw [parse_dumpElems xs hwxs (lvl + 1) lvl rest hsep m
          (by simp only [List.length_append, List.length_cons]; omega)]
  | obj fields => cases fields with
    | nil => rfl
    | cons f fs =>
      simp only [wfVal, wfFields_cons, Bool.and_eq_true] at hwf
      obtain ⟨hwv, hwfs⟩ := hwf
      have hdump : dumpVal (.obj (f :: fs)) lvl ++ rest
          = lbrace :: (('\n' :: jsonIndent (lvl + 1))
            ++ (dumpMember f (lvl + 1)
              ++ (dumpObjRest fs (lvl + 1) ++ '\n' :: jsonIndent lvl ++ rbrace :: rest))) := by
        show lbrace :: '\n' :: jsonIndent (lvl + 1) ++ dumpMember f (lvl + 1)
            ++ dumpObjRest fs (lvl + 1) ++ '\n' :: jsonIndent lvl ++ [rbrace] ++ rest = _
        simp
      rw [hdump]
      have hlen := congrArg List.length hdump
      simp only [List.length_append, List.length_cons] at hlen hn
      simp only [parseVal]
      rw [dropWhile_cons_neg _ _ (by decide)]
      dsimp only
      rw [if_pos (rfl : lbrace = lbrace)]
      have hm : dumpMember f (lvl + 1)
          = '"' :: (escapeBody f.1.data ++ '"' :: ':' :: ' ' :: dumpVal f.2 (lvl + 1)) := by
        obtain ⟨k, v⟩ := f
        show escapeString k ++ ':' :: ' ' :: dumpVal v (lvl + 1) = _
        simp [escapeString]
      have hscrut : (('\n' :: jsonIndent (lvl + 1))
          ++ (dumpMember f (lvl + 1)
            ++ (dumpObjRest fs (lvl + 1) ++ '\n' :: jsonIndent lvl ++ rbrace :: rest))).dropWhile isJsonWs
          = '"' :: ((escapeBody f.1.data ++ '"' :: ':' :: ' ' :: dumpVal f.2 (lvl + 1))
              ++ (dumpObjRest fs (lvl + 1) ++ '\n' :: jsonIndent lvl ++ rbrace :: rest)) := by
        rw [hm, dropWhile_append_all _ _ (nl_indent_ws (lvl + 1)), List.cons_append,
          dropWhile_cons_neg _ _ (by rfl)]
      rw [hscrut]
      dsimp only
      rw [if_neg (by decide : ¬('"' : Char) = rbrace)]
      rw [parse_dumpMemberT f hwv (lvl + 1) ('\n' :: jsonIndent (lvl + 1))
        (dumpObjRest fs (lvl + 1) ++ '\n' :: jsonIndent lvl ++ rbrace :: rest)
        (nl_indent_ws (lvl + 1)) (sepOk_dumpObjRest fs (lvl + 1) lvl rest) m
        (by simp only [List.length_append, List.length_cons]; omega)]
      dsimp only
      rw [parse_dumpMembers fs hwfs (lvl + 1) lvl rest hsep m
        (by simp only [List.length_append, List.length_cons]; omega)]
termination_by sizeOf v
decreasing_by all_goals (subst_vars; simp_wf; try omega)

/-- The items after the first of a serialized nonempty array parse back. -/
theorem parse_dumpElems (xs : List JVal) (hwf : wfList xs = true) (lvl klvl : Nat)
    (rest : List Char) (hsep : sepOk rest) (n : Nat)
    (hn : (dumpArrRest xs lvl ++ '\n' :: jsonIndent klvl ++ ']' :: rest).length < n) :
    parseElemsRest n (dumpArrRest xs lvl ++ '\n' :: jsonIndent klvl ++ ']' :: rest)
      = some (xs, rest) := by
  obtain ⟨m, rfl⟩ : ∃ m, n = m + 1 := ⟨n - 1, by omega⟩
  cases xs with
  | nil =>
    show parseElemsRest (m + 1) ([] ++ ('\n' :: jsonIndent klvl ++ ']' :: rest)) = _
    rw [List.nil_append]
    simp only [parseElemsRest]
    rw [dropWhile_append_all _ _ (nl_indent_ws klvl), dropWhile_cons_neg _ _ (by rfl)]
    dsimp only
    rw [if_pos (rfl : (']' : Char) = ']')]
  | cons y ys =>
    simp only [wfList, Bool.and_eq_true] at hwf
    obtain ⟨hwy, hwys⟩ := hwf
    have hd : dumpArrRest (y :: ys) lvl ++ '\n' :: jsonIndent klvl ++ ']' :: rest
        = ',' :: (('\n' :: jsonIndent lvl)
          ++ (dumpVal y lvl ++ (dumpArrRest ys lvl ++ '\n' :: jsonIndent klvl ++ ']' :: rest))) := by
      show ',' :: '\n' :: jsonIndent lvl ++ dumpVal y lvl ++ dumpArrRest ys lvl
          ++ '\n' :: jsonIndent klvl ++ ']' :: rest = _
      simp
    rw [hd]
    have hlen := congrArg List.length hd
    simp only [List.length_append, List.length_cons] at hlen hn
    simp only [parseElemsRest]
    rw [dropWhile_cons_neg _ _ (by rfl)]
    dsimp only
    rw [if_neg (by decide : ¬(',' : Char) = ']'), if_pos (rfl : (',' : Char) = ',')]
    rw [parse_dumpVal y hwy lvl ('\n' :: jsonIndent lvl)
      (dumpArrRest ys lvl ++ '\n' :: jsonIndent klvl ++ ']' :: rest)
      (nl_indent_ws lvl) (sepOk_dumpArrRest ys lvl klvl rest) m
      (by simp only [List.length_append, List.length_cons]; omega)]
    dsimp only
    rw [parse_dumpElems ys hwys lvl klvl rest hsep m
      (by simp only [List.length_append, List.length_cons]; omega)]
termination_by sizeOf xs
decreasing_by all_goals (subst_vars; simp_wf; try omega)

/-- A serialized `"key": value` member parses back. -/
theorem parse_dumpMemberT (kv : String × JVal) (hwf : wfVal kv.2 = true) (lvl : Nat)
    (ws rest : List Char) (hws : ∀ c ∈ ws, isJsonWs c = true) (hsep : sepOk rest)
    (n : Nat) (hn : (ws ++ dumpMember kv lvl ++ rest).length < n) :
    parseMember n (ws ++ (dumpMember kv lvl ++ rest)) = some (kv, rest) := by
  obtain ⟨m, rfl⟩ : ∃ m, n = m + 1 := ⟨n - 1, by omega⟩
  rw [parseMember_ws m ws _ hws]
  have hm : dumpMember kv lvl ++ rest
      = '"' :: (escapeBody kv.1.data ++ '"' :: ':' :: ([' '] ++ (dumpVal kv.2 lvl ++ rest))) := by
    obtain ⟨k, v⟩ := kv
    show escapeString k ++ ':' :: ' ' :: dumpVal v lvl ++ rest = _
    simp [escapeString]
  rw [hm]
  have hlen := congrArg List.length hm
  simp only [List.length_append, List.length_cons] at hlen hn
  simp only [parseMember]
  rw [dropWhile_cons_neg _ _ (by rfl)]
  dsimp only
  have hbk : kv.1.data.length < m := by
    have hel := escapeBody_length kv.1.data
    omega
  rw [if_pos (rfl : ('"' : Char) = '"')]
  rw [parseStringBody_escString kv.1 _ m hbk]
  dsimp only
  rw [dropWhile_cons_neg _ _ (by rfl)]
  dsimp only
  rw [if_pos (rfl : (':' : Char) = ':')]
  rw [parse_dumpVal kv.2 hwf lvl [' '] rest (by decide) hsep m
    (by simp only [List.length_append, List.length_cons]; omega)]
termination_by sizeOf kv
decreasing_by all_goals (subst_vars; simp_wf; try simp only [sizeOf_prod]; try omega)

/-- The members after the first of a serialized nonempty object parse back. -/
theorem parse_dumpMembers (fs : List (String × JVal)) (hwf : wfFields fs = true)
    (lvl klvl : Nat) (rest : List Char) (hsep : sepOk rest) (n : Nat)
    (hn : (dumpObjRest fs lvl ++ '\n' :: jsonIndent klvl ++ rbrace :: rest).length < n) :
    parseMembersRest n (dumpObjRest fs lvl ++ '\n' :: jsonIndent klvl ++ rbrace :: rest)
      = some (fs, rest) := by
  obtain ⟨m, rfl⟩ : ∃ m, n = m + 1 := ⟨n - 1, by omega⟩
  cases fs with
  | nil =>
    show parseMembersRest (m + 1) ([] ++ ('\n' :: jsonIndent klvl ++ rbrace :: rest)) = _
    rw [List.nil_append]
    simp only [parseMembersRest]
    rw [dropWhile_append_all _ _ (nl_indent_ws klvl), dropWhile_cons_neg _ _ (by decide)]
    dsimp only
    rw [if_pos (rfl : rbrace = rbrace)]
  | cons f fs =>
    simp only [wfFields_cons, Bool.and_eq_true] at hwf
    obtain ⟨hwv, hwfs⟩ := hwf
    have hd : dumpObjRest (f :: fs) lvl ++ '\n' :: jsonIndent klvl ++ rbrace :: rest
        = ',' :: (('\n' :: jsonIndent lvl)
          ++ (dumpMember f lvl
            ++ (dumpObjRest fs lvl ++ '\n' :: jsonIndent klvl ++ rbrace :: rest))) := by
      show ',' :: '\n' :: jsonIndent lvl ++ dumpMember f lvl ++ dumpObjRest fs lvl
          ++ '\n' :: jsonIndent klvl ++ rbrace :: rest = _
      simp
    rw [hd]
    have hlen := congrArg List.length hd
    simp only [List.length_append, List.length_cons] at hlen hn
    simp only [parseMembersRest]
    rw [dropWhile_cons_neg _ _ (by rfl)]
    dsimp only
    rw [if_neg (by decide : ¬(',' : Char) = rbrace), if_pos (rfl : (',' : Char) = ',')]
    rw [parse_dumpMemberT f hwv lvl ('\n' :: jsonIndent lvl)
      (dumpObjRest fs lvl ++ '\n' :: jsonIndent klvl ++ rbrace :: rest)
      (nl_indent_ws lvl) (sepOk_dumpObjRest fs lvl klvl rest) m
      (by simp only [List.length_append, List.length_cons]; omega)]
    dsimp only
    rw [parse_dumpMembers fs hwfs lvl klvl rest hsep m
      (by simp only [List.length_append, List.length_cons]; omega)]
termination_by sizeOf fs
decreasing_by all_goals (subst_vars; simp_wf; try omega)
end

/-- Pretty-printed serialization of a well-formed value decodes to the
same value. -/
theorem loads_dumps4 (v : JVal) (hwf : wfVal v = true) : loads (dumps4 v) = some v := by
  unfold loads dumps4
  have hdata : (String.mk (dumpVal v 0)).data = dumpVal v 0 := rfl
  rw [hdata]
  have h := parse_dumpVal v hwf 0 [] [] (by simp) trivial ((dumpVal v 0).length + 1)
    (by simp)
  simp only [List.nil_append, List.append_nil] at h
  rw [h]
  rfl

theorem all_takeWhile (p : Char → Bool) (l : List Char) :
    (l.takeWhile p).all p = true := by
  induction l with
  | nil => rfl
  | cons c cs ih =>
    by_cases hc : p c
    · simp [List.takeWhile_cons, hc, ih]
    · simp [List.takeWhile_cons, hc]

/-- Every value the parser produces is well-formed. -/
theorem parse_sound (n : Nat) :
    (∀ cs v rest, parseVal n cs = some (v, rest) → wfVal v = true) ∧
    (∀ cs vs rest, parseElemsRest n cs = some (vs, rest) → wfList vs = true) ∧
    (∀ cs f rest, parseMember n cs = some (f, rest) → wfVal f.2 = true) ∧
    (∀ cs fs rest, parseMembersRest n cs = some (fs, rest) → wfFields fs = true) := by
  induction n with
  | zero =>
    refine ⟨?_, ?_, ?_, ?_⟩ <;> · intro cs a rest h; exact absurd h (by simp [parseVal,
      parseElemsRest, parseMember, parseMembersRest])
  | succ m ih =>
    obtain ⟨ihv, ihe, ihm, ihms⟩ := ih
    refine ⟨?_, ?_, ?_, ?_⟩
    · intro cs v rest h
      simp only [parseVal] at h
      cases hd : cs.dropWhile isJsonWs with
      | nil => rw [hd] at h; exact absurd h (by simp)
      | cons c rest₁ =>
        rw [hd] at h
        dsimp only at h
        by_cases h1 : c = lbrace
        · rw [if_pos h1] at h
          cases hd₂ : rest₁.dropWhile isJsonWs with
          | nil => rw [hd₂] at h; exact absurd h (by simp)
          | cons d rest₂ =>
            rw [hd₂] at h
            dsimp only at h
            by_cases h2 : d = rbrace
            · rw [if_pos h2] at h
              obtain ⟨hv, _⟩ := Prod.mk.injEq .. ▸ Option.some.injEq .. ▸ h
              rw [← hv]
              rfl
            · rw [if_neg h2] at h
              cases hmem : parseMember m rest₁ with
              | none => rw [hmem] at h; exact absurd h (by simp)
              | some p =>
                obtain ⟨f, rest₃⟩ := p
                rw [hmem] at h
                dsimp only at h
                cases hms : parseMembersRest m rest₃ with
                | none => rw [hms] at h; exact absurd h (by simp)
                | some q =>
                  obtain ⟨fs, rest₄⟩ := q
                  rw [hms] at h
                  dsimp only at h
                  simp only [Option.some.injEq, Prod.mk.injEq] at h
                  rw [← h.1]
                  show wfFields (f :: fs) = true
                  rw [wfFields_cons]
                  simp [ihm rest₁ f rest₃ hmem, ihms rest₃ fs rest₄ hms]
        · rw [if_neg h1] at h
          by_cases h2 : c = '['
          · rw [if_pos h2] at h
            split at h
            · simp only [Option.some.injEq, Prod.mk.injEq] at h
              rw [← h.1]
              rfl
            · cases hv1 : parseVal m rest₁ with
              | none => rw [hv1] at h; exact absurd h (by simp)
              | some p =>
                obtain ⟨v₁, rest₂⟩ := p
                rw [hv1] at h
                dsimp only at h
                cases he1 : parseElemsRest m rest₂ with
                | none => rw [he1] at h; exact absurd h (by simp)
                | some q =>
                  obtain ⟨vs, rest₃⟩ := q
                  rw [he1] at h
                  dsimp only at h
                  simp only [Option.some.injEq, Prod.mk.injEq] at h
                  rw [← h.1]
                  show wfList (v₁ :: vs) = true
                  simp only [wfList, Bool.and_eq_true]
                  exact ⟨ihv rest₁ v₁ rest₂ hv1, ihe rest₂ vs rest₃ he1⟩
          · rw [if_neg h2] at h
            by_cases h3 : c = '"'
            · rw [if_pos h3] at h
              cases hs : parseStringBody m rest₁ with
              | none => rw [hs] at h; exact absurd h (by simp)
              | some p =>
                obtain ⟨sc, rest₂⟩ := p
                rw [hs] at h
                dsimp only at h
                simp only [Option.some.injEq, Prod.mk.injEq] at h
                rw [← h.1]
                rfl
            · rw [if_neg h3] at h
              by_cases h4 : isNumStart c = true
              · rw [if_pos h4] at h
                simp only [Option.some.injEq, Prod.mk.injEq] at h
                rw [← h.1]
                show numTokOk (String.mk ((c :: rest₁).takeWhile isNumChar)) = true
                unfold numTokOk
                have htk : (c :: rest₁).takeWhile isNumChar
                    = c :: rest₁.takeWhile isNumChar := by
                  simp [List.takeWhile_cons, numStart_isNumChar c h4]
                rw [show (String.mk ((c :: rest₁).takeWhile isNumChar)).data
                    = (c :: rest₁).takeWhile isNumChar from rfl, htk]
                simp only [Bool.and_eq_true]
                refine ⟨h4, ?_⟩
                have hall := all_takeWhile isNumChar rest₁
                simp only [List.all_cons, Bool.and_eq_true]
                exact ⟨numStart_isNumChar c h4, hall⟩
              · rw [if_neg h4] at h
                split at h
                · simp only [Option.some.injEq, Prod.mk.injEq] at h
                  rw [← h.1]
                  rfl
                · simp only [Option.some.injEq, Prod.mk.injEq] at h
                  rw [← h.1]
                  rfl
                · simp only [Option.some.injEq, Prod.mk.injEq] at h
                  rw [← h.1]
                  rfl
                · exact absurd h (by simp)
    · intro cs vs rest h
      simp only [parseElemsRest] at h
      cases hd : cs.dropWhile isJsonWs with
      | nil => rw [hd] at h; exact absurd h (by simp)
      | cons d rest₁ =>
        rw [hd] at h
        dsimp only at h
        by_cases h1 : d = ']'
        · rw [if_pos h1] at h
          simp only [Option.some.injEq, Prod.mk.injEq] at h
          rw [← h.1]
          rfl
        · rw [if_neg h1] at h
          by_cases h2 : d = ','
          · rw [if_pos h2] at h
            cases hv1 : parseVal m rest₁ with
            | none => rw [hv1] at h; exact absurd h (by simp)
            | some p =>
              obtain ⟨v₁, rest₂⟩ := p
              rw [hv1] at h
              dsimp only at h
              cases he1 : parseElemsRest m rest₂ with
              | none => rw [he1] at h; exact absurd h (by simp)
              | some q =>
                obtain ⟨vs₁, rest₃⟩ := q
                rw [he1] at h
                dsimp only at h
                simp only [Option.some.injEq, Prod.mk.injEq] at h
                rw [← h.1]
                simp only [wfList, Bool.and_eq_true]
                exact ⟨ihv rest₁ v₁ rest₂ hv1, ihe rest₂ vs₁ rest₃ he1⟩
          · rw [if_neg h2] at h
            exact absurd h (by simp)
    · intro cs f rest h
      simp only [parseMember] at h
      cases hd : cs.dropWhile isJsonWs with
      | nil => rw [hd] at h; exact absurd h (by simp)
      | cons q rest₁ =>
        rw [hd] at h
        dsimp only at h
        by_cases h1 : q = '"'
        · rw [if_pos h1] at h
          cases hs : parseStringBody m rest₁ with
          | none => rw [hs] at h; exact absurd h (by simp)
          | some p =>
            obtain ⟨kc, rest₂⟩ := p
            rw [hs] at h
            dsimp only at h
            cases hd₂ : rest₂.dropWhile isJsonWs with
            | nil => rw [hd₂] at h; exact absurd h (by simp)
            | cons col rest₃ =>
              rw [hd₂] at h
              dsimp only at h
              by_cases h2 : col = ':'
              · rw [if_pos h2] at h
                cases hv1 : parseVal m rest₃ with
                | none => rw [hv1] at h; exact absurd h (by simp)
                | some p₂ =>
                  obtain ⟨v₁, rest₄⟩ := p₂
                  rw [hv1] at h
                  dsimp only at h
                  simp only [Option.some.injEq, Prod.mk.injEq] at h
                  rw [← h.1]
                  exact ihv rest₃ v₁ rest₄ hv1
              · rw [if_neg h2] at h
                exact absurd h (by simp)
        · rw [if_neg h1] at h
          exact absurd h (by simp)
    · intro cs fs rest h
      simp only [parseMembersRest] at h
      cases hd : cs.dropWhile isJsonWs with
      | nil => rw [hd] at h; exact absurd h (by simp)
      | cons d rest₁ =>
        rw [hd] at h
        dsimp only at h
        by_cases h1 : d = rbrace
        · rw [if_pos h1] at h
          simp only [Option.some.injEq, Prod.mk.injEq] at h
          rw [← h.1]
          rfl
        · rw [if_neg h1] at h
          by_cases h2 : d = ','
          · rw [if_pos h2] at h
            cases hmem : parseMember m rest₁ with
            | none => rw [hmem] at h; exact absurd h (by simp)
            | some p =>
              obtain ⟨f, rest₂⟩ := p
              rw [hmem] at h
              dsimp only at h
              cases hms : parseMembersRest m rest₂ with
              | none => rw [hms] at h; exact absurd h (by simp)
              | some q =>
                obtain ⟨fs₁, rest₃⟩ := q
                rw [hms] at h
                dsimp only at h
                simp only [Option.some.injEq, Prod.mk.injEq] at h
                rw [← h.1]
                rw [wfFields_cons]
                simp [ihm rest₁ f rest₂ hmem, ihms rest₂ fs₁ rest₃ hms]
          · rw [if_neg h2] at h
            exact absurd h (by simp)

/-- Any value `json.loads` returns is well-formed. -/
theorem loads_sound (s : String) (v : JVal) (h : loads s = some v) : wfVal v = true := by
  unfold loads at h
  cases hp : parseVal (s.data.length + 1) s.data with
  | none => rw [hp] at h; exact absurd h (by simp)
  | some p =>
    obtain ⟨v₁, rest⟩ := p
    rw [hp] at h
    dsimp only at h
    by_cases hr : rest.dropWhile isJsonWs = []
    · rw [if_pos hr] at h
      have hv : v₁ = v := by injection h
      rw [← hv]
      exact (parse_sound (s.data.length + 1)).1 s.data v₁ rest hp
    · rw [if_neg hr] at h
      exact absurd h (by simp)

/-- The JSON round trip performed by the client: a decodable response body,
re-serialized with `indent=4`, parses back to the same value. -/
theorem loads_after_dumps4 (body : String) (v : JVal) (h : loads body = some v) :
    loads (dumps4 v) = some v :=
  loads_dumps4 v (loads_sound body v h)

/-! ## Lemmas about the client run -/

/-- The request the loop sends for directory entry `f`. -/
def mkRequest (cfg : Config) (f : String) : Request :=
  { url := analyzeUrl cfg.host cfg.port, fpath := pathJoin cfg.i f
    audioName := basename (pathJoin cfg.i f), meta := mdataStr cfg }

/-- The result path the loop writes for directory entry `f`. -/
def mkResultPath (cfg : Config) (f : String) : String :=
  pathJoin (outputDirectory cfg) (resultFileName f)

theorem step_nonCandidate (env : Env) (cfg : Config) (st : RunState) (f : String)
    (h : isCandidate f = false) : step env cfg st f = (st, none) := by
  simp [step, h]

theorem step_ioErr (env : Env) (cfg : Config) (st : RunState) (f : String)
    (hc : isCandidate f = true) (hr : env.readable (pathJoin cfg.i f) = false) :
    step env cfg st f = (st, some (.ioError (pathJoin cfg.i f))) := by
  simp [step, hc, sendRequest, hr]

theorem step_netErr (env : Env) (cfg : Config) (st : RunState) (f : String)
    (hc : isCandidate f = true) (hr : env.readable (pathJoin cfg.i f) = true)
    (hresp : env.respond (pathJoin cfg.i f) = none) :
    step env cfg st f
      = ({ st with requests := st.requests ++ [mkRequest cfg f] },
          some (.netError (pathJoin cfg.i f))) := by
  simp [step, hc, sendRequest, hr, hresp, mkRequest]

theorem step_decodeErr (env : Env) (cfg : Config) (st : RunState) (f : String)
    (status : Nat) (body : String)
    (hc : isCandidate f = true) (hr : env.readable (pathJoin cfg.i f) = true)
    (hresp : env.respond (pathJoin cfg.i f) = some (status, body))
    (hl : loads body = none) :
    step env cfg st f
      = ({ st with requests := st.requests ++ [mkRequest cfg f] },
          some (.decodeError body)) := by
  simp [step, hc, sendRequest, hr, hresp, mkRequest, decodeResponse, hl]

theorem step_ok (env : Env) (cfg : Config) (st : RunState) (f : String)
    (status : Nat) (body : String) (data : JVal)
    (hc : isCandidate f = true) (hr : env.readable (pathJoin cfg.i f) = true)
    (hresp : env.respond (pathJoin cfg.i f) = some (status, body))
    (hl : loads body = some data) :
    step env cfg st f
      = ({ requests := st.requests ++ [mkRequest cfg f],
           fs := saveResult st.fs data (mkResultPath cfg f) }, none) := by
  simp [step, hc, sendRequest, hr, hresp, mkRequest, decodeResponse, hl, mkResultPath]

theorem runGo_cons (env : Env) (cfg : Config) (f : String) (l : List String)
    (st : RunState) :
    runGo env cfg (f :: l) st
      = match step env cfg st f with
        | (st', none) => runGo env cfg l st'
        | (st', some e) => (st', some e) := rfl

/-- A successful run issues exactly one request per candidate entry, in
listing order, and performs exactly one result-file write per candidate,
touching nothing else. -/
theorem runGo_ok_trace (env : Env) (cfg : Config) :
    ∀ (l : List String) (st : RunState), (runGo env cfg l st).2 = none →
    (runGo env cfg l st).1.requests
        = st.requests ++ (l.filter isCandidate).map (mkRequest cfg) ∧
    (runGo env cfg l st).1.fs.files.map Prod.fst
        = ((l.filter isCandidate).map (mkResultPath cfg)).reverse
            ++ st.fs.files.map Prod.fst := by
  intro l
  induction l with
  | nil => intro st _; simp [runGo]
  | cons f l ih =>
    intro st hok
    rw [runGo_cons] at hok ⊢
    by_cases hc : isCandidate f
    · by_cases hr : env.readable (pathJoin cfg.i f) = true
      · cases hresp : env.respond (pathJoin cfg.i f) with
        | none =>
          rw [step_netErr env cfg st f hc hr hresp] at hok
          exact absurd hok (by simp)
        | some resp =>
          obtain ⟨status, body⟩ := resp
          cases hl : loads body with
          | none =>
            rw [step_decodeErr env cfg st f status body hc hr hresp hl] at hok
            exact absurd hok (by simp)
          | some data =>
            rw [step_ok env cfg st f status body data hc hr hresp hl] at hok ⊢
            dsimp only at hok ⊢
            obtain ⟨h1, h2⟩ := ih _ hok
            constructor
            · rw [h1]
              simp [List.filter_cons, hc]
            · rw [h2]
              simp [List.filter_cons, hc, saveResult, List.append_assoc]
      · rw [step_ioErr env cfg st f hc (by simpa using hr)] at hok
        exact absurd hok (by simp)
    · rw [step_nonCandidate env cfg st f (by simpa using hc)] at hok ⊢
      dsimp only at hok ⊢
      have hfilter : (f :: l).filter isCandidate = l.filter isCandidate := by
        simp [List.filter_cons, hc]
      rw [hfilter]
      exact ih st hok

/-- A failing run decomposes as: a successful prefix, then the failing
entry, at which the batch stops. -/
theorem runGo_err (env : Env) (cfg : Config) :
    ∀ (l : List String) (st : RunState) (e : ClientError),
    (runGo env cfg l st).2 = some e →
    ∃ pre fbad post st₁, l = pre ++ fbad :: post ∧
      runGo env cfg pre st = (st₁, none) ∧
      step env cfg st₁ fbad = ((runGo env cfg l st).1, some e) := by
  intro l
  induction l with
  | nil => intro st e h; exact absurd h (by simp [runGo])
  | cons f l ih =>
    intro st e h
    rw [runGo_cons] at h ⊢
    cases hstep : step env cfg st f with
    | mk st' oerr =>
      cases oerr with
      | none =>
        rw [hstep] at h
        dsimp only at h ⊢
        obtain ⟨pre, fbad, post, st₁, hsplit, hpre, hstep₁⟩ := ih st' e h
        refine ⟨f :: pre, fbad, post, st₁, by simp [hsplit], ?_, hstep₁⟩
        rw [runGo_cons, hstep]
        exact hpre
      | some e' =>
        rw [hstep] at h
        dsimp only at h ⊢
        have he : e' = e := by injection h
        refine ⟨[], f, l, st, rfl, rfl, ?_⟩
        rw [hstep, he]

/-- Running never removes or changes files already on disk: the files list
only grows at the front. -/
theorem runGo_files_grow (env : Env) (cfg : Config) :
    ∀ (l : List String) (st : RunState),
    ∃ nw, (runGo env cfg l st).1.fs.files = nw ++ st.fs.files := by
  intro l
  induction l with
  | nil => intro st; exact ⟨[], rfl⟩
  | cons f l ih =>
    intro st
    rw [runGo_cons]
    by_cases hc : isCandidate f
    · by_cases hr : env.readable (pathJoin cfg.i f) = true
      · cases hresp : env.respond (pathJoin cfg.i f) with
        | none =>
          rw [step_netErr env cfg st f hc hr hresp]
          exact ⟨[], rfl⟩
        | some resp =>
          obtain ⟨status, body⟩ := resp
          cases hl : loads body with
          | none =>
            rw [step_decodeErr env cfg st f status body hc hr hresp hl]
            exact ⟨[], rfl⟩
          | some data =>
            rw [step_ok env cfg st f status body data hc hr hresp hl]
            dsimp only
            obtain ⟨nw, hnw⟩ :=
              ih { requests := st.requests ++ [mkRequest cfg f], fs := saveResult st.fs data (mkResultPath cfg f) }
            refine ⟨nw ++ [(mkResultPath cfg f, dumps4 data)], ?_⟩
            rw [hnw]
            simp [saveResult]
      · rw [step_ioErr env cfg st f hc (by simpa using hr)]
        exact ⟨[], rfl⟩
    · rw [step_nonCandidate env cfg st f (by simpa using hc)]
      exact ih st

/-- Provenance of every file entry after a run: it was already present, or
it is the serialized decoded response of some candidate of the listing. -/
theorem runGo_files_src (env : Env) (cfg : Config) :
    ∀ (l : List String) (st : RunState) (ent : String × String),
    ent ∈ (runGo env cfg l st).1.fs.files →
    ent ∈ st.fs.files ∨ ∃ f status body v, f ∈ l ∧ isCandidate f = true ∧
      env.respond (pathJoin cfg.i f) = some (status, body) ∧ loads body = some v ∧
      ent = (mkResultPath cfg f, dumps4 v) := by
  intro l
  induction l with
  | nil => intro st ent h; exact Or.inl h
  | cons f l ih =>
    intro st ent h
    rw [runGo_cons] at h
    by_cases hc : isCandidate f
    · by_cases hr : env.readable (pathJoin cfg.i f) = true
      · cases hresp : env.respond (pathJoin cfg.i f) with
        | none =>
          rw [step_netErr env cfg st f hc hr hresp] at h
          exact Or.inl h
        | some resp =>
          obtain ⟨status, body⟩ := resp
          cases hl : loads body with
          | none =>
            rw [step_decodeErr env cfg st f status body hc hr hresp hl] at h
            exact Or.inl h
          | some data =>
            rw [step_ok env cfg st f status body data hc hr hresp hl] at h
            dsimp only at h
            rcases ih _ ent h with hin | ⟨g, st₂, bd, v, hg, hgc, hgr, hgl, hent⟩
            · simp only [saveResult, List.mem_cons] at hin
              rcases hin with hent | hin
              · exact Or.inr ⟨f, status, body, data, by simp, hc, hresp, hl, hent⟩
              · exact Or.inl hin
            · exact Or.inr ⟨g, st₂, bd, v, by simp [hg], hgc, hgr, hgl, hent⟩
      · rw [step_ioErr env cfg st f hc (by simpa using hr)] at h
        exact Or.inl h
    · rw [step_nonCandidate env cfg st f (by simpa using hc)] at h
      rcases ih st ent h with hin | ⟨g, st₂, bd, v, hg, rest⟩
      · exact Or.inl hin
      · exact Or.inr ⟨g, st₂, bd, v, by simp [hg], rest⟩

/-- Every request any run ever issues carries the same metadata string:
the serialized `mdata` of the configuration. -/
theorem runGo_meta (env : Env) (cfg : Config) :
    ∀ (l : List String) (st : RunState),
    (∀ r ∈ st.requests, r.meta = mdataStr cfg) →
    ∀ r ∈ (runGo env cfg l st).1.requests, r.meta = mdataStr cfg := by
  intro l
  induction l with
  | nil => intro st hst r hr; exact hst r hr
  | cons f l ih =>
    intro st hst r hmem
    rw [runGo_cons] at hmem
    by_cases hc : isCandidate f
    · by_cases hr : env.readable (pathJoin cfg.i f) = true
      · cases hresp : env.respond (pathJoin cfg.i f) with
        | none =>
          rw [step_netErr env cfg st f hc hr hresp] at hmem
          dsimp only at hmem
          rcases List.mem_append.mp hmem with h | h
          · exact hst r h
          · simp only [List.mem_singleton] at h
            rw [h]; rfl
        | some resp =>
          obtain ⟨status, body⟩ := resp
          cases hl : loads body with
          | none =>
            rw [step_decodeErr env cfg st f status body hc hr hresp hl] at hmem
            dsimp only at hmem
            rcases List.mem_append.mp hmem with h | h
            · exact hst r h
            · simp only [List.mem_singleton] at h
              rw [h]; rfl
          | some data =>
            rw [step_ok env cfg st f status body data hc hr hresp hl] at hmem
            dsimp only at hmem
            refine ih _ ?_ r hmem
            intro r' hr'
            rcases List.mem_append.mp hr' with h | h
            · exact hst r' h
            · simp only [List.mem_singleton] at h
              rw [h]; rfl
      · rw [step_ioErr env cfg st f hc (by simpa using hr)] at hmem
        exact hst r hmem
    · rw [step_nonCandidate env cfg st f (by simpa using hc)] at hmem
      exact ih st hst r hmem

theorem step_err_fs (env : Env) (cfg : Config) (st : RunState) (f : String)
    (e : ClientError) (h : (step env cfg st f).2 = some e) :
    (step env cfg st f).1.fs = st.fs := by
  by_cases hc : isCandidate f
  · by_cases hr : env.readable (pathJoin cfg.i f) = true
    · cases hresp : env.respond (pathJoin cfg.i f) with
      | none => rw [step_netErr env cfg st f hc hr hresp]
      | some resp =>
        obtain ⟨status, body⟩ := resp
        cases hl : loads body with
        | none => rw [step_decodeErr env cfg st f status body hc hr hresp hl]
        | some data =>
          rw [step_ok env cfg st f status body data hc hr hresp hl] at h
          exact absurd h (by simp)
    · rw [step_ioErr env cfg st f hc (by simpa using hr)]
  · rw [step_nonCandidate env cfg st f (by simpa using hc)]

theorem resultFileName_eq_iff (a b : String) :
    resultFileName a = resultFileName b ↔ splitextRoot a = splitextRoot b := by
  constructor
  · intro h
    unfold resultFileName at h
    have hd := congrArg String.data h
    rw [String.data_append, String.data_append] at hd
    have hcancel := List.append_cancel_right hd
    cases hA : splitextRoot a with
    | mk dataA =>
      cases hB : splitextRoot b with
      | mk dataB =>
        rw [hA, hB] at hcancel
        have hdat : dataA = dataB := hcancel
        rw [hdat]
  · intro h
    unfold resultFileName
    rw [h]

/-! ## The claims -/

/-- **C1** (counterexample): two distinct candidate audio files that differ
only in extension derive the same result file name — `a.wav` and `a.mp3`
both yield `a.BirdNET.results.json`, so collision-freedom as claimed fails. -/
theorem c1_counterexample :
    isCandidate "a.wav" = true ∧ isCandidate "a.mp3" = true ∧
    ("a.wav" : String) ≠ "a.mp3" ∧
    resultFileName "a.wav" = resultFileName "a.mp3" ∧
    resultFileName "a.wav" = "a.BirdNET.results.json" := by
  refine ⟨rfl, rfl, by decide, rfl, rfl⟩

/-- **C1** (amended): every candidate audio file processed by a successful
run yields exactly one result-file write, but derived result names collide
exactly when the inputs share the same `splitext` stem — in particular,
inputs differing only in extension collide. -/
theorem c1_amended :
    (∀ a b : String, resultFileName a = resultFileName b ↔ splitextRoot a = splitextRoot b) ∧
    (∀ (env : Env) (cfg : Config) (fs₀ : FS),
      (runClient env cfg fs₀).2 = none →
      (runClient env cfg fs₀).1.fs.files.length
        = (env.listing.filter isCandidate).length + fs₀.files.length) := by
  refine ⟨resultFileName_eq_iff, ?_⟩
  intro env cfg fs₀ hok
  have h := (runGo_ok_trace env cfg env.listing (initState fs₀) (by simpa [runClient] using hok)).2
  have hlen := congrArg List.length h
  simp only [List.length_map, List.length_append, List.length_reverse, initState] at hlen
  simpa [runClient, initState] using hlen

def c1Env : Env :=
  { listing := ["a.wav", "b.txt", "c.mp3"], readable := fun _ => true
    respond := fun _ => some (200, "null") }

/-- Witness for C1 (amended) at a concrete run. -/
theorem c1_witness :
    (resultFileName "a.wav" = resultFileName "a.mp3"
      ↔ splitextRoot "a.wav" = splitextRoot "a.mp3") ∧
    (runClient c1Env defaultConfig { dirs := [], files := [] }).1.fs.files.length
      = (c1Env.listing.filter isCandidate).length
          + (FS.mk [] []).files.length :=
  ⟨c1_amended.1 "a.wav" "a.mp3",
   c1_amended.2 c1Env defaultConfig { dirs := [], files := [] } rfl⟩

/-- Modelled from the spec's words "only the final extension is stripped":
everything from the final dot (inclusive) is removed; a name without a dot
is unchanged.  Refinement comparison definition, to be compared with
`splitextRoot`, which embeds `os.path.splitext` from the source. -/
def specStripFinalExt (name : String) : String :=
  match name.data.reverse.dropWhile (fun c => c ≠ '.') with
  | [] => name
  | _ :: pre => String.mk pre.reverse

/-- **C2** (counterexample): `.wav` is a candidate file name, yet its
result name keeps the whole name — the final extension is not stripped —
so the universally stated derivation rule fails on it. -/
theorem c2_counterexample :
    isCandidate ".wav" = true ∧
    resultFileName ".wav" = ".wav.BirdNET.results.json" ∧
    specStripFinalExt ".wav" ++ ".BirdNET.results.json" = ".BirdNET.results.json" ∧
    resultFileName ".wav" ≠ specStripFinalExt ".wav" ++ ".BirdNET.results.json" := by
  refine ⟨rfl, rfl, rfl, by decide⟩

/-- **C2** (amended): for every candidate whose name has a proper
extension — some dot preceded by a non-dot character — the result name is
obtained by stripping the final extension and appending
`.BirdNET.results.json`; the spec's two examples hold as stated. -/
theorem c2_amended :
    (∀ name : String, hasProperExt name = true →
      resultFileName name = specStripFinalExt name ++ ".BirdNET.results.json") ∧
    resultFileName "soundscape.wav" = "soundscape.BirdNET.results.json" ∧
    resultFileName "a.b.mp3" = "a.b.BirdNET.results.json" := by
  refine ⟨?_, rfl, rfl⟩
  intro name h
  unfold hasProperExt at h
  unfold resultFileName splitextRoot specStripFinalExt
  dsimp only
  cases hd : name.data.reverse.dropWhile (fun c => c ≠ '.') with
  | nil =>
    rw [hd] at h
  | cons dot pre =>
    rw [hd] at h
    dsimp only at h ⊢
    rw [if_pos h]

/-- Witness for C2 (amended) at the spec's own example. -/
theorem c2_witness :
    hasProperExt "soundscape.wav" = true ∧
    resultFileName "soundscape.wav"
      = specStripFinalExt "soundscape.wav" ++ ".BirdNET.results.json" :=
  ⟨rfl, c2_amended.1 "soundscape.wav" rfl⟩

/-- **C10**: a file named exactly `.wav` or `.mp3` passes the candidate
filter, but `os.path.splitext` treats the leading-dot name as having no
extension, so nothing is stripped and the result name is the full name
with `.BirdNET.results.json` appended. -/
theorem c10_thm :
    isCandidate ".wav" = true ∧ isCandidate ".mp3" = true ∧
    splitextRoot ".wav" = ".wav" ∧ splitextRoot ".mp3" = ".mp3" ∧
    resultFileName ".wav" = ".wav.BirdNET.results.json" ∧
    resultFileName ".mp3" = ".mp3.BirdNET.results.json" :=
  ⟨rfl, rfl, rfl, rfl, rfl, rfl⟩

/-- **C3**: in a successful run, the requests issued are exactly one per
directory entry whose name ends in `.wav` or `.mp3` (in listing order),
and the result files written are exactly one per such entry; entries with
any other name trigger no request and no result file. -/
theorem c3_thm : ∀ (env : Env) (cfg : Config) (fs₀ : FS),
    (runClient env cfg fs₀).2 = none →
    (runClient env cfg fs₀).1.requests
        = (env.listing.filter isCandidate).map (mkRequest cfg) ∧
    (runClient env cfg fs₀).1.fs.files.map Prod.fst
        = ((env.listing.filter isCandidate).map (mkResultPath cfg)).reverse
            ++ fs₀.files.map Prod.fst := by
  intro env cfg fs₀ h
  have := runGo_ok_trace env cfg env.listing (initState fs₀) (by simpa [runClient] using h)
  simpa [runClient, initState] using this

def c3Env : Env :=
  { listing := ["clip1.wav", "notes.txt"], readable := fun _ => true
    respond := fun _ => some (200, "\x7b\"species\": []\x7d") }

/-- Witness for C3: one `.wav` file and one `.txt` file; exactly one
request and one result file, derived from the `.wav` entry. -/
theorem c3_witness :
    (runClient c3Env defaultConfig { dirs := [], files := [] }).2 = none ∧
    (runClient c3Env defaultConfig { dirs := [], files := [] }).1.requests
      = (c3Env.listing.filter isCandidate).map (mkRequest defaultConfig) ∧
    (runClient c3Env defaultConfig { dirs := [], files := [] }).1.fs.files.map Prod.fst
      = ((c3Env.listing.filter isCandidate).map (mkResultPath defaultConfig)).reverse
          ++ (FS.mk [] []).files.map Prod.fst :=
  ⟨rfl, (c3_thm c3Env defaultConfig { dirs := [], files := [] } rfl).1,
    (c3_thm c3Env defaultConfig { dirs := [], files := [] } rfl).2⟩

/-- **C4**: an empty `--o` makes results land in the input directory (and
a nonempty one in the given directory); `saveResult` creates the
destination directory and all its ancestors — with no error and no loss
when directories already exist — and then writes the seralized result at
the destination path. -/
theorem c4_thm :
    (∀ cfg : Config, cfg.o = "" → outputDirectory cfg = cfg.i) ∧
    (∀ cfg : Config, cfg.o ≠ "" → outputDirectory cfg = cfg.o) ∧
    (∀ (fs : FS) (data : JVal) (p : String),
      (saveResult fs data p).files = (p, dumps4 data) :: fs.files ∧
      (∀ q ∈ pathWithAncestors (dirname p), q ∈ (saveResult fs data p).dirs) ∧
      (∀ d ∈ fs.dirs, d ∈ (saveResult fs data p).dirs)) ∧
    (∀ (env : Env) (cfg : Config) (fs₀ : FS), cfg.o = "" →
      (runClient env cfg fs₀).2 = none →
      (runClient env cfg fs₀).1.fs.files.map Prod.fst
        = ((env.listing.filter isCandidate).map
            (fun f => pathJoin cfg.i (resultFileName f))).reverse
            ++ fs₀.files.map Prod.fst) := by
  refine ⟨?_, ?_, ?_, ?_⟩
  · intro cfg h; simp [outputDirectory, h]
  · intro cfg h; simp [outputDirectory, h]
  · intro fs data p
    refine ⟨rfl, ?_, ?_⟩
    · intro q hq
      show q ∈ makedirs fs.dirs (dirname p)
      exact List.mem_append_left _ hq
    · intro d hd
      show d ∈ makedirs fs.dirs (dirname p)
      exact List.mem_append_right _ hd
  · intro env cfg fs₀ ho h
    have hthis := (runGo_ok_trace env cfg env.listing (initState fs₀)
      (by simpa [runClient] using h)).2
    have hfun : mkResultPath cfg = fun f => pathJoin cfg.i (resultFileName f) := by
      funext f
      simp [mkResultPath, outputDirectory, ho]
    rw [hfun] at hthis
    simpa [runClient, initState] using hthis

def c4Env : Env :=
  { listing := ["clip1.wav"], readable := fun _ => true
    respond := fun _ => some (200, "true") }

/-- Witness for C4 at concrete configurations, a concrete `saveResult`
call, and a concrete run with `--o` left empty. -/
theorem c4_witness :
    outputDirectory defaultConfig = defaultConfig.i ∧
    outputDirectory { defaultConfig with o := "out" } = "out" ∧
    ((saveResult (FS.mk ["keep"] []) .null "out/sub/a.json").files
        = [("out/sub/a.json", dumps4 .null)] ∧
      "out/sub" ∈ (saveResult (FS.mk ["keep"] []) .null "out/sub/a.json").dirs ∧
      "out" ∈ (saveResult (FS.mk ["keep"] []) .null "out/sub/a.json").dirs ∧
      "keep" ∈ (saveResult (FS.mk ["keep"] []) .null "out/sub/a.json").dirs) ∧
    (runClient c4Env defaultConfig { dirs := [], files := [] }).1.fs.files.map Prod.fst
      = ((c4Env.listing.filter isCandidate).map
          (fun f => pathJoin defaultConfig.i (resultFileName f))).reverse
          ++ (FS.mk [] []).files.map Prod.fst := by
  refine ⟨c4_thm.1 defaultConfig rfl, c4_thm.2.1 _ (by decide), ⟨?_, ?_, ?_, ?_⟩, ?_⟩
  · exact (c4_thm.2.2.1 (FS.mk ["keep"] []) .null "out/sub/a.json").1
  · exact (c4_thm.2.2.1 (FS.mk ["keep"] []) .null "out/sub/a.json").2.1 "out/sub"
      (by simp [pathWithAncestors, dirChain, dirname])
  · exact (c4_thm.2.2.1 (FS.mk ["keep"] []) .null "out/sub/a.json").2.1 "out"
      (by simp [pathWithAncestors, dirChain, dirname])
  · exact (c4_thm.2.2.1 (FS.mk ["keep"] []) .null "out/sub/a.json").2.2 "keep" (by simp)
  · exact c4_thm.2.2.2 c4Env defaultConfig { dirs := [], files := [] } rfl rfl

/-- **C5**: every result file written during a run (beyond the initial
filesystem) is the `indent=4` serialization of the value the server's
JSON-decodable response body decoded to, and parsing the written content
back yields exactly that value. -/
theorem c5_thm : ∀ (env : Env) (cfg : Config) (fs₀ : FS) (p c : String),
    (p, c) ∈ (runClient env cfg fs₀).1.fs.files →
    (p, c) ∈ fs₀.files ∨
    ∃ f status body v, f ∈ env.listing ∧ isCandidate f = true ∧
      env.respond (pathJoin cfg.i f) = some (status, body) ∧
      loads body = some v ∧
      p = mkResultPath cfg f ∧ c = dumps4 v ∧ loads c = some v := by
  intro env cfg fs₀ p c hmem
  have hsrc := runGo_files_src env cfg env.listing (initState fs₀) (p, c)
    (by simpa [runClient] using hmem)
  rcases hsrc with h | ⟨f, status, body, v, hf, hc, hr, hl, hent⟩
  · exact Or.inl h
  · right
    have hp : p = mkResultPath cfg f := congrArg Prod.fst hent
    have hcv : c = dumps4 v := congrArg Prod.snd hent
    refine ⟨f, status, body, v, hf, hc, hr, hl, hp, hcv, ?_⟩
    rw [hcv]
    exact loads_after_dumps4 body v hl

def c5Env : Env :=
  { listing := ["clip1.wav"], readable := fun _ => true
    respond := fun _ => some (200, "\x7b\"species\": []\x7d") }

/-- Witness for C5: the concrete end-to-end scenario of the spec — the
written file content parses back to the decoded mock response. -/
theorem c5_witness :
    ("example/clip1.BirdNET.results.json", "\x7b\n    \"species\": []\n\x7d")
        ∈ (runClient c5Env defaultConfig { dirs := [], files := [] }).1.fs.files ∧
    (("example/clip1.BirdNET.results.json", "\x7b\n    \"species\": []\n\x7d")
        ∈ (FS.mk [] ([] : List (String × String))).files ∨
      ∃ f status body v, f ∈ c5Env.listing ∧ isCandidate f = true ∧
        c5Env.respond (pathJoin defaultConfig.i f) = some (status, body) ∧
        loads body = some v ∧
        "example/clip1.BirdNET.results.json" = mkResultPath defaultConfig f ∧
        "\x7b\n    \"species\": []\n\x7d" = dumps4 v ∧
        loads "\x7b\n    \"species\": []\n\x7d" = some v) :=
  ⟨by decide, c5_thm c5Env defaultConfig { dirs := [], files := [] } _ _ (by decide)⟩

/-- **C6**: every request of every run carries as its `meta` form field
the JSON serialization of exactly the nine CLI-supplied values, the same
string for every file in the batch; with the parser defaults, the
sentinels for `lat`, `lon` and `week` are `-1` (the int `-1`, since
`argparse` does not apply `type=float` to a non-string default), and the
default metadata string is spelled out in full. -/
theorem c6_thm :
    (∀ (env : Env) (cfg : Config) (fs₀ : FS) (r : Request),
      r ∈ (runClient env cfg fs₀).1.requests → r.meta = mdataStr cfg) ∧
    (∀ cfg : Config, mdataStr cfg = dumpsC (mdata cfg) ∧
      mdata cfg = .obj [("lat", .num cfg.lat), ("lon", .num cfg.lon),
        ("week", .num cfg.week), ("overlap", .num cfg.overlap),
        ("sensitivity", .num cfg.sensitivity), ("sf_thresh", .num cfg.sf_thresh),
        ("pmode", .str cfg.pmode), ("num_results", .num cfg.num_results),
        ("save", .bool cfg.save)]) ∧
    defaultConfig.lat = "-1" ∧ defaultConfig.lon = "-1" ∧
    defaultConfig.week = "-1" ∧
    mdataStr defaultConfig =
      "\x7b\"lat\": -1, \"lon\": -1, \"week\": -1, \"overlap\": 0.0, \"sensitivity\": 1.0, \"sf_thresh\": 0.03, \"pmode\": \"avg\", \"num_results\": 5, \"save\": false\x7d" := by
  refine ⟨?_, fun cfg => ⟨rfl, rfl⟩, rfl, rfl, rfl, by decide⟩
  intro env cfg fs₀ r h
  exact runGo_meta env cfg env.listing (initState fs₀) (by simp [initState]) r
    (by simpa [runClient] using h)

def c6Env : Env :=
  { listing := ["a.wav", "b.mp3"], readable := fun _ => true
    respond := fun _ => some (200, "0") }

/-- Witness for C6: both requests of a concrete two-file run carry the
default metadata string. -/
theorem c6_witness :
    (runClient c6Env defaultConfig { dirs := [], files := [] }).1.requests
        = [mkRequest defaultConfig "a.wav", mkRequest defaultConfig "b.mp3"] ∧
    (mkRequest defaultConfig "a.wav").meta = mdataStr defaultConfig ∧
    (mkRequest defaultConfig "b.mp3").meta = mdataStr defaultConfig := by
  refine ⟨by decide, ?_, ?_⟩
  · exact c6_thm.1 c6Env defaultConfig { dirs := [], files := [] } _ (by decide)
  · exact c6_thm.1 c6Env defaultConfig { dirs := [], files := [] } _ (by decide)

/-- **C7**: a failing run decomposes into a successful prefix of the
listing, then the failing candidate at which the batch aborts: the final
state is exactly the state at the failure, the failing file writes
nothing, no later entry is processed, and result files written earlier
remain on disk unchanged. -/
theorem c7_thm : ∀ (env : Env) (cfg : Config) (fs₀ : FS) (e : ClientError),
    (runClient env cfg fs₀).2 = some e →
    ∃ pre fbad post st₁,
      env.listing = pre ++ fbad :: post ∧
      runGo env cfg pre (initState fs₀) = (st₁, none) ∧
      step env cfg st₁ fbad = ((runClient env cfg fs₀).1, some e) ∧
      (runClient env cfg fs₀).1.fs = st₁.fs ∧
      (∃ nw, (runClient env cfg fs₀).1.fs.files = nw ++ fs₀.files) := by
  intro env cfg fs₀ e h
  obtain ⟨pre, fbad, post, st₁, hsplit, hpre, hstep⟩ :=
    runGo_err env cfg env.listing (initState fs₀) e (by simpa [runClient] using h)
  have hrc : runClient env cfg fs₀ = runGo env cfg env.listing (initState fs₀) := rfl
  refine ⟨pre, fbad, post, st₁, hsplit, hpre, by rw [hrc]; exact hstep, ?_, ?_⟩
  · have hfs := step_err_fs env cfg st₁ fbad e (by rw [hstep])
    have h2 : (step env cfg st₁ fbad).1.fs = (runClient env cfg fs₀).1.fs := by
      rw [hstep, hrc]
    rw [← h2, hfs]
  · have hg := runGo_files_grow env cfg env.listing (initState fs₀)
    simpa [runClient, initState] using hg

def c7Env : Env :=
  { listing := ["a.wav", "b.wav", "c.wav"], readable := fun _ => true
    respond := fun p => if p = "example/b.wav" then none else some (200, "null") }

/-- Witness for C7: the middle file of a three-file batch suffers a
transport failure; the run aborts there with the first file's result on
disk and no request for the third file. -/
theorem c7_witness :
    (runClient c7Env defaultConfig { dirs := [], files := [] }).2
        = some (.netError "example/b.wav") ∧
    (∃ pre fbad post st₁,
      c7Env.listing = pre ++ fbad :: post ∧
      runGo c7Env defaultConfig pre (initState { dirs := [], files := [] })
        = (st₁, none) ∧
      step c7Env defaultConfig st₁ fbad
        = ((runClient c7Env defaultConfig { dirs := [], files := [] }).1,
            some (.netError "example/b.wav")) ∧
      (runClient c7Env defaultConfig { dirs := [], files := [] }).1.fs = st₁.fs ∧
      (∃ nw, (runClient c7Env defaultConfig { dirs := [], files := [] }).1.fs.files
        = nw ++ (FS.mk [] []).files)) :=
  ⟨rfl, c7_thm c7Env defaultConfig { dirs := [], files := [] }
    (.netError "example/b.wav") rfl⟩

def c8Env : Env :=
  { listing := ["b.wav", "a.wav"], readable := fun _ => true
    respond := fun _ => some (200, "null") }

/-- **C8** (counterexample): the loop takes the directory listing as
`os.listdir` yields it, without sorting; on a listing `["b.wav", "a.wav"]`
the files are processed in that order, which is not the lexicographically
sorted order `["a.wav", "b.wav"]`. -/
theorem c8_counterexample :
    (runClient c8Env defaultConfig { dirs := [], files := [] }).1.requests.map
        (fun r => r.audioName) = ["b.wav", "a.wav"] ∧
    List.Lex (fun a b : Char => a < b) "a.wav".data "b.wav".data ∧
    (["b.wav", "a.wav"] : List String) ≠ ["a.wav", "b.wav"] := by
  refine ⟨rfl, by decide, by decide⟩

/-- **C8** (amended): the candidate files are processed in a single pass
over the directory listing in exactly the order the listing yields, which
is not guaranteed to be sorted. -/
theorem c8_amended : ∀ (env : Env) (cfg : Config) (fs₀ : FS),
    (runClient env cfg fs₀).2 = none →
    (runClient env cfg fs₀).1.requests.map (fun r => r.fpath)
      = (env.listing.filter isCandidate).map (pathJoin cfg.i) := by
  intro env cfg fs₀ h
  have h1 := (runGo_ok_trace env cfg env.listing (initState fs₀)
    (by simpa [runClient] using h)).1
  have h2 : (runClient env cfg fs₀).1.requests
      = (env.listing.filter isCandidate).map (mkRequest cfg) := by
    simpa [runClient, initState] using h1
  rw [h2, List.map_map]
  rfl

/-- Witness for C8 (amended) at a concrete unsorted listing. -/
theorem c8_witness :
    (runClient c8Env defaultConfig { dirs := [], files := [] }).2 = none ∧
    (runClient c8Env defaultConfig { dirs := [], files := [] }).1.requests.map
        (fun r => r.fpath)
      = (c8Env.listing.filter isCandidate).map (pathJoin defaultConfig.i) :=
  ⟨rfl, c8_amended c8Env defaultConfig { dirs := [], files := [] } rfl⟩

/-- **C9**: response decoding never inspects the HTTP status code — the
result is the same for any two statuses over the same body — and a body
that is not valid JSON surfaces as a decode error, with no fallback value;
inside the loop such a file makes the step fail with exactly that decode
error. -/
theorem c9_thm :
    (∀ (s₁ s₂ : Nat) (body : String), decodeResponse (s₁, body) = decodeResponse (s₂, body)) ∧
    (∀ (status : Nat) (body : String), loads body = none →
      decodeResponse (status, body) = .error (.decodeError body)) ∧
    (∀ (env : Env) (cfg : Config) (st : RunState) (f : String) (status : Nat) (body : String),
      isCandidate f = true → env.readable (pathJoin cfg.i f) = true →
      env.respond (pathJoin cfg.i f) = some (status, body) → loads body = none →
      (step env cfg st f).2 = some (.decodeError body)) := by
  refine ⟨fun s₁ s₂ body => rfl, ?_, ?_⟩
  · intro status body h
    simp [decodeResponse, h]
  · intro env cfg st f status body hc hr hresp hl
    rw [step_decodeErr env cfg st f status body hc hr hresp hl]

def c9Env : Env :=
  { listing := ["a.wav"], readable := fun _ => true
    respond := fun _ => some (500, "oops not json") }

/-- Witness for C9: statuses 200 and 500 decode identically, and a
non-JSON body aborts the concrete step with a decode error. -/
theorem c9_witness :
    decodeResponse (200, "oops not json") = decodeResponse (500, "oops not json") ∧
    decodeResponse (500, "oops not json") = .error (.decodeError "oops not json") ∧
    (step c9Env defaultConfig (initState { dirs := [], files := [] }) "a.wav").2
      = some (.decodeError "oops not json") :=
  ⟨c9_thm.1 200 500 "oops not json",
   c9_thm.2.1 500 "oops not json" rfl,
   c9_thm.2.2 c9Env defaultConfig (initState { dirs := [], files := [] }) "a.wav"
     500 "oops not json" rfl rfl rfl rfl⟩
